import Mathlib

/-!
Verification development for the mel-spectrogram feature-extraction core
(`mel_feature_extraction.py`).

Shallow embedding conventions
=============================

* Tensors become `List ℚ` / `List (List ℚ)` (rows = mel bins, columns = time
  frames); machine floats become exact rationals.  All control flow of the
  source is reproduced exactly; places where IEEE semantics leak in are
  handled as follows.

* NaN: `torch.mean` / `torch.std` of an empty tensor yield NaN, and every
  comparison against NaN is false.  Where a NaN can reach a *stored* scalar we
  model the scalar as `Option ℚ` with `none` for NaN.  Where a NaN can only
  appear inside a comparison we model the comparison as the source writes it,
  noting that both sides agree (each such site is documented).

* Exceptions: `torch.max` on an empty tensor, `torch.diff` on a 0-dim tensor,
  `avg_pool1d` with empty input and indexing `t[0]` on an empty tensor all
  raise; fallible functions return `Except String _`.

* Transcendental functions (`log10`, `log2`, `log`, `exp`, `sqrt`,
  `10 ** (x/10)`) are not rational.  The pipeline is therefore parametrised by
  a `RealOps` record of abstract functions `ℚ → ℚ`; every theorem about the
  pipeline's control flow / exception behaviour holds for *all* such
  parameters, which subsumes the real-valued semantics.  Comparisons of the
  form `torch.std(v) ⋈ t`, i.e. `sqrt (var v) ⋈ t` with `t ≥ 0`, are embedded
  exactly as `var v ⋈ t^2` (strict monotonicity of `sqrt` on nonnegatives);
  likewise the silence test `10*log10 (p) < -70` is embedded exactly as
  `p < 10⁻⁷` (strict monotonicity of `log10`).  Value-level claims about
  entropy / spread use a second, real-valued embedding of the spectral
  analyzer (`spectralR` section) with `Real.sqrt` and `Real.logb`.

* The numeric audio configuration (`shared_audio_config.AUDIO_CONFIG`:
  `hop_length`, `sample_rate`, `mel_bin_groups`) is not part of the sources;
  per the spec, frame duration is `hopLength / sampleRate` seconds.  All
  definitions take the frame duration `fd` (and the band-group table) as
  parameters; theorems instantiate `fd = 1/100` (hop 160 @ 16 kHz, the
  spec's DASHENG-style configuration), giving `min_segment_frames = 50` and
  `min_frame_spacing = 20` for the 0.5 s / 0.2 s defaults.

* Python `round(x, n)` is modelled as round-half-to-even in ℚ.  Every claim
  that touches a rounded quantity only uses it at exact multiples of the
  rounding grid, where the float/rational discrepancy vanishes.
-/

namespace MelFeat

/-- Numerical-stability epsilon, `MelFeatureExtractor.__init__` default `1e-8`. -/
def eps : ℚ := 1 / 100000000

/-- Mean of a list of rationals (`torch.mean` on a nonempty tensor).
For the empty tensor torch yields NaN; callers that can receive an empty
tensor go through `meanO` instead. -/
def meanQ (l : List ℚ) : ℚ := l.sum / l.length

/-- NaN-aware mean: `none` models the NaN produced by `torch.mean` on an
empty tensor. -/
def meanO (l : List ℚ) : Option ℚ :=
  if l.isEmpty then none else some (meanQ l)

/-- Unbiased sample variance, the square of `torch.std` (which uses the
`n−1` normalisation).  For a single element torch's std is NaN; every
comparison the source makes against such a NaN is false, and with the ℚ
convention `x / 0 = 0` this definition gives `0`, which falsifies the same
comparisons (each use site is checked in its doc comment). -/
def sampleVar (l : List ℚ) : ℚ :=
  (l.map (fun x => (x - meanQ l) ^ 2)).sum / ((l.length : ℚ) - 1)

/-- Elementwise forward difference, `torch.diff` on a 1-D tensor:
`out[i] = in[i+1] - in[i]`. -/
def diffQ (l : List ℚ) : List ℚ := l.zipWith (fun a b => b - a) l.tail

/-- Maximum of a tensor (`torch.max` / `np.max`); `none` models the
exception torch raises on an empty tensor (callers surface it). -/
def maxO : List ℚ → Option ℚ
  | [] => none
  | x :: xs => some (xs.foldl max x)

/-- Minimum of a tensor (`torch.min` / `np.min`); `none` on empty. -/
def minO : List ℚ → Option ℚ
  | [] => none
  | x :: xs => some (xs.foldl min x)

/-- The `torch.sign` function. -/
def signQ (x : ℚ) : ℚ := if 0 < x then 1 else if x < 0 then -1 else 0

/-- The `torch.clamp(x, min=m)` operation. -/
def clampMin (x m : ℚ) : ℚ := max x m

/-- Round-half-to-even to an integer (Python `round` banker's rounding). -/
def bankersRound (q : ℚ) : ℤ :=
  let f := ⌊q⌋
  let r := q - f
  if r < 1 / 2 then f
  else if 1 / 2 < r then f + 1
  else if f % 2 = 0 then f else f + 1

/-- Python `round(x, 2)`. -/
def round2 (q : ℚ) : ℚ := (bankersRound (q * 100) : ℚ) / 100

/-- Python `round(x, 1)`. -/
def round1 (q : ℚ) : ℚ := (bankersRound (q * 10) : ℚ) / 10

/-- The `torch.linspace(a, b, n)` tensor: `n` evenly spaced points from `a`
to `b` inclusive.  For `n = 1` torch returns `[a]`, which the formula below
also yields thanks to `0 / 0 = 0` in ℚ. -/
def linspace (a b : ℚ) (n : ℕ) : List ℚ :=
  (List.range n).map (fun k => a + (b - a) * k / ((n : ℚ) - 1))

/-- First index of the maximum value (`torch.argmax` on a nonempty 1-D
tensor; ties resolve to the first occurrence).  Returns `0` on the empty
list, which is unreachable at every call site (`numBands > 0`). -/
def argmaxIdx (l : List ℚ) : ℕ :=
  (l.foldl (fun (st : ℕ × ℕ × Option ℚ) x =>
    match st with
    | (_, i, none) => (i, i + 1, some x)
    | (best, i, some bv) => if bv < x then (i, i + 1, some x) else (best, i + 1, some bv)) (0, 0, none)).1

/-- Energy-over-time curve: `torch.mean(mel_power, dim=0)`, the per-frame
mean over mel bins (no epsilon added here; each source function adds its
own). -/
def powerOverTime (M : List (List ℚ)) : List ℚ :=
  (List.range (M.headD []).length).map (fun j => meanQ (M.map (fun r => r.getD j 0)))

/-- Per-frame spectral centroid in mel bins, lines 377-385 / 598-602:
`centroid[j] = Σ_i i·(M[i][j]+eps) / Σ_i (M[i][j]+eps)`. -/
def centroidOverTime (M : List (List ℚ)) : List ℚ :=
  (List.range (M.headD []).length).map (fun j =>
    let col := M.map (fun r => r.getD j 0 + eps)
    (((List.range M.length).zip col).map (fun p => (p.1 : ℚ) * p.2)).sum / col.sum)

/-- Decibel conversion of the energy curve, `10 * log10 (power + eps)`,
with the abstract `log10`. -/
def energyDbCurve (log10q : ℚ → ℚ) (M : List (List ℚ)) : List ℚ :=
  (powerOverTime M).map (fun p => 10 * log10q (p + eps))

/-- Abstract stand-ins for the transcendental float functions the source
uses.  Pipeline theorems hold for every choice of these functions. -/
structure RealOps where
  l10 : ℚ → ℚ
  l2 : ℚ → ℚ
  ln : ℚ → ℚ
  expq : ℚ → ℚ
  sqrtq : ℚ → ℚ
  pow10 : ℚ → ℚ

/-! ## Silence & activity detector (`detect_silence`, lines 293-337)

The frame-silence test `10*log10(p + eps) < -70` is embedded exactly in the
power domain as `p + eps < 10⁻⁷` (`log10` is strictly monotone and
`10*log10 x < -70 ↔ x < 10^(-7)` for `x > 0`; `p + eps > 0` for any
nonnegative energy matrix). -/

/-- Linear-power value of the −70 dB silence threshold. -/
def silenceThresholdPow : ℚ := 1 / 10000000

/-- Per-frame activity flags: frame `j` is active iff it is not silent. -/
def isActiveList (M : List (List ℚ)) : List Bool :=
  (powerOverTime M).map (fun p => !decide (p + eps < silenceThresholdPow))

structure SilenceStats where
  silence_percentage : ℚ
  num_silent_frames : ℕ
  num_active_regions : ℕ
  active_time_percentage : ℚ
  deriving Repr, DecidableEq

/-- Silence statistics, lines 293-337.  `transitions = diff(active.float())`
and `transitions > 0` holds exactly when the previous frame is silent and
the current one active, embedded as `!x && y`.  Indexing `is_active[0]` on a
zero-frame clip raises in torch, hence the `Except`. -/
def detect_silence (M : List (List ℚ)) : Except String SilenceStats :=
  let a := isActiveList M
  let total := a.length
  let numSilent := a.count false
  let pct : ℚ := if 0 < total then (numSilent : ℚ) / total * 100 else 0
  let transitions := (a.zipWith (fun x y => !x && y) a.tail).count true
  match a with
  | [] => .error "index 0 is out of bounds"
  | first :: _ =>
    .ok { silence_percentage := pct
          num_silent_frames := numSilent
          num_active_regions := transitions + (if first then 1 else 0)
          active_time_percentage := 100 - pct }

/-- Auxiliary run counter: scans the flag list remembering the previous
flag and counts positions that start a run of `true`. -/
def runsAux : Bool → List Bool → ℕ
  | _, [] => 0
  | prev, b :: rest => (if b && !prev then 1 else 0) + runsAux b rest

/-- Number of maximal runs of `true` (the spec-side reading of "number of
active regions"): compared against the source's transition-count formula
in the claim-6 theorem. -/
def countTrueRuns (l : List Bool) : ℕ := runsAux false l

/-! ## Temporal dynamics (`extract_temporal_dynamics`, lines 263-291) -/

/-- Stationarity and onset strength, lines 263-291.  Both are
`mean(·)/mean(power_over_time)`; for a single-frame clip `frame_diff` is
empty and `torch.mean` of it is NaN, modelled as `none`. -/
def extract_temporal_dynamics (M : List (List ℚ)) : Option (ℚ × ℚ) :=
  let pot := (powerOverTime M).map (· + eps)
  let fdiff := diffQ pot
  match meanO (fdiff.map (fun x => |x|)), meanO (fdiff.map (fun x => max x 0)), meanO pot with
  | some a, some p, some m => some (a / m, p / m)
  | _, _, _ => none

/-! ## Envelope-shape classifier (`_classify_envelope_shape`, lines 436-479) -/

/-- Min-max normalisation of the dB curve, lines 365-366:
`(e - e.min) / clamp(e.max - e.min, min=eps)`.  Empty input cannot reach
this site (`numFrames > 0`). -/
def energyNormalized (edb : List ℚ) : List ℚ :=
  match maxO edb, minO edb with
  | some mx, some mn => edb.map (fun x => (x - mn) / clampMin (mx - mn) eps)
  | _, _ => []

/-- Linear-regression slope of `y` against `x = linspace 0 1 n`, lines
447-450.  The denominator `Σ (x-x̄)²` is *not* clamped in this function; it
is zero exactly when `n ≤ 1`, where torch produces NaN — modelled as
`none`. -/
def slopeO (y : List ℚ) : Option ℚ :=
  if y.length ≤ 1 then none
  else
    let x := linspace 0 1 y.length
    let mx := meanQ x
    let my := meanQ y
    some ((((x.map (fun v => v - mx)).zipWith (· * ·) (y.map (fun v => v - my))).sum) /
      ((x.map (fun v => (v - mx) ^ 2)).sum))

/-- Count of sign alternations of the derivative, lines 468-469:
`sum |diff (sign (diff e))|`. -/
def signChanges (e : List ℚ) : ℚ :=
  ((diffQ ((diffQ e).map signQ)).map (fun x => |x|)).sum

/-- Envelope-shape classifier, lines 436-479.

* the attack-decay test evaluates `mean(first_third) < 0.5`,
  `max(first_half) > 0.7` and `mean(last_third) < mean(first_third) + 0.2`;
  a mean of an empty slice is NaN and the comparison is then false
  (`Option.elim` with default `false`); `max` of an empty first half can
  only be reached when the first conjunct already failed, exactly as in the
  Python short-circuit;
* `torch.std(e) > 0.25` is embedded exactly as `sampleVar e > (1/4)²`
  (for `n = 1` torch's NaN std falsifies the comparison and so does the ℚ
  value `0`);
* when the regression slope is NaN (`n = 1`) both slope comparisons are
  false and the trailing else-branch returns "decrescendo". -/
def classify_envelope_shape (e : List ℚ) : String :=
  let n := e.length
  let firstThird := e.take (n / 3)
  let firstHalf := e.take (n / 2)
  let lastThird := e.drop (n * 2 / 3)
  let isAttackDecay :=
    ((meanO firstThird).elim false (fun m => decide (m < 1 / 2))) &&
    ((maxO firstHalf).elim false (fun m => decide (7 / 10 < m))) &&
    ((meanO lastThird).elim false (fun ml =>
      (meanO firstThird).elim false (fun mf => decide (ml < mf + 1 / 5))))
  if isAttackDecay then "attack-decay"
  else if 1 / 16 < sampleVar e then
    if 6 < signChanges e then "pulsating" else "erratic"
  else
    match slopeO e with
    | some s => if |s| < 3 / 10 then "steady"
                else if 3 / 10 < s then "crescendo"
                else "decrescendo"
    | none => "decrescendo"

/-! ## Pitch-movement classifier (`_classify_pitch_movement`, lines 481-521) -/

/-- Regression slope with the clamped denominator used by the pitch and
segment classifiers (lines 492-496, 770-776):
`Σ(x-x̄)(y-ȳ) / clamp(Σ(x-x̄)², min=eps)`. -/
def slopeClamped (x y : List ℚ) : ℚ :=
  let mx := meanQ x
  let my := meanQ y
  (((x.map (fun v => v - mx)).zipWith (· * ·) (y.map (fun v => v - my))).sum) /
    clampMin ((x.map (fun v => (v - mx) ^ 2)).sum) eps

/-- Pitch-movement classifier, lines 481-521.  `torch.max` over the
frame-to-frame jumps raises on a single-frame clip (empty diff).
`std > 8` and `std < 3` are embedded exactly as `var > 64` / `var < 9`
(unbiased variance; for `n = 1`, unreachable here, both sides of each
comparison agree as documented at `sampleVar`). -/
def classify_pitch_movement (c : List ℚ) : Except String String :=
  let x := linspace 0 1 c.length
  let mx := meanQ x
  let my := meanQ c
  let slope := slopeClamped x c
  let d := diffQ c
  match maxO (d.map (fun v => |v|)) with
  | none => .error "max(): empty tensor"
  | some maxJump =>
    if 10 < maxJump then .ok "jumping"
    else if 64 < sampleVar c then
      let detrended := c.zipWith (fun cv xv => cv - (my + slope * (xv - mx))) x
      if 6 < ((diffQ (detrended.map signQ)).map (fun v => |v|)).sum then .ok "wobbling"
      else .ok "complex"
    else if sampleVar c < 9 then .ok "stable"
    else if 5 < |slope| then (if 0 < slope then .ok "rising" else .ok "falling")
    else .ok "stable"

/-! ## Rhythm classifier (lines 393-432, 523-560)

Rhythm outputs are stored in the record but read by no claim; the
inter-onset std enters them through the abstract `sqrtq`. -/

/-- Rhythm-type classifier, lines 523-560. -/
def classify_rhythm_type (iois : List ℚ) (regularity : ℚ)
    (numEvents : ℕ) : String :=
  if numEvents ≤ 2 then "isolated_events"
  else
    let accel :=
      if 3 ≤ iois.length then
        let x := (List.range iois.length).map (fun k => (k : ℚ))
        let meanIoi := meanQ iois
        let slope := slopeClamped x iois
        if meanIoi * (3 / 10) < |slope| then
          some (if slope < 0 then "accelerating" else "decelerating")
        else none
      else none
    match accel with
    | some s => s
    | none => if 7 / 10 < regularity then "regular" else "irregular"

/-- Onset frames, inter-onset regularity and rhythm type, lines 393-423.
The onset threshold is `mean + 2·std` of the positive-clamped derivative;
`pd[i] > mean + 2·sqrt(var)` is embedded exactly as
`0 < pd[i] - mean ∧ (pd[i] - mean)² > 4·var` (valid since `2·std ≥ 0`). -/
def rhythmFeatures (sqrtq : ℚ → ℚ) (pot : List ℚ) : ℚ × String :=
  let fdiff := diffQ pot
  let pd := fdiff.map (fun v => max v 0)
  let m := meanQ pd
  let v := sampleVar pd
  let onsetFrames := ((pd.enum).filter (fun p => decide (0 < p.2 - m) && decide (4 * v < (p.2 - m) ^ 2))).map (·.1)
  if 1 < onsetFrames.length then
    let iois := diffQ (onsetFrames.map (fun i => (i : ℚ)))
    let regularity :=
      if 1 < iois.length then
        let cv := sqrtq (sampleVar iois) / clampMin (meanQ iois) eps
        1 / (1 + cv)
      else 1 / 2
    (regularity, classify_rhythm_type iois regularity onsetFrames.length)
  else
    (0, if onsetFrames.length = 0 then "continuous" else "isolated_events")

/-! ## Segmentation engine (`extract_temporal_segments` and helpers,
lines 562-916) -/

/-- Moving average `torch.nn.functional.avg_pool1d(·, kernel_size=5,
stride=1, padding=2)` on a 1-D tensor: output has the input's length and
`out[i]` is one fifth of the sum of the (zero-padded) window
`in[i-2..i+2]` (`count_include_pad` defaults to true, so the divisor is
always 5). -/
def avgPool5 (l : List ℚ) : List ℚ :=
  (List.range l.length).map (fun (i : ℕ) =>
    (((List.range 5).map (fun (k : ℕ) =>
      let j : ℤ := (i : ℤ) + (k : ℤ) - 2
      if 0 ≤ j ∧ j < (l.length : ℤ) then l.getD j.toNat 0 else 0)).sum) / 5)

/-- The `torch.unique` of a concatenation: sorted ascending with
duplicates removed. -/
def sortDedup (l : List ℕ) : List ℕ := (l.mergeSort (· ≤ ·)).dedup

/-- The minimum-gap scan of lines 698-702: starting from the last accepted
changepoint, keep a candidate iff it is at least `m` frames after the last
accepted one (`cp - filtered[-1] >= min_gap`, i.e. `last + m ≤ cp`). -/
def gapFilter (m : ℕ) : ℕ → List ℕ → List ℕ
  | _, [] => []
  | last, cp :: rest =>
    if last + m ≤ cp then cp :: gapFilter m cp rest else gapFilter m last rest

/-- Changepoint detection, `_detect_changepoints` lines 654-708.

Errors: for a single-frame clip the derivative is empty and `avg_pool1d`
raises ("output size too small"); for a two-frame clip the pooled tensor
has one element, `.squeeze()` makes it 0-dimensional and `torch.diff`
raises.  Both inputs have the same length at every call site, so the
energy branch raises first in both cases. -/
def detect_changepoints (e c : List ℚ) (lt pt : ℚ) (minGap : ℕ) :
    Except String (List ℕ) :=
  let ed := diffQ e
  let cd := diffQ c
  if ed.isEmpty then .error "avg_pool1d: output size too small"
  else if ed.length = 1 then .error "diff expects input to be at least one-dimensional"
  else
    let esc := (diffQ (avgPool5 ed)).map (fun v => |v|)
    let csc := (diffQ (avgPool5 cd)).map (fun v => |v|)
    let ecp := (esc.enum.filter (fun p => decide (lt < p.2))).map (·.1 + 1)
    let pcp := (csc.enum.filter (fun p => decide (pt < p.2))).map (·.1 + 1)
    let filtered := 0 :: gapFilter minGap 0 (sortDedup (ecp ++ pcp))
    .ok (if filtered.getLast? = some (e.length - 1) then filtered
         else filtered ++ [e.length - 1])

structure LoudnessStats where
  mean_db : ℚ
  start_db : ℚ
  end_db : ℚ
  slope_db_per_sec : ℚ
  /-- The source stores `round(torch.std(energy), 1)`; we store the
  unbiased variance instead (`std ⋈ t ↔ var ⋈ t²`); the stored value is
  only ever copied or averaged downstream, never compared. -/
  std_sq_db : ℚ
  classification : String
  deriving Repr, DecidableEq, Inhabited

structure PitchStats where
  mean_mel_bin : ℚ
  start_mel_bin : ℚ
  end_mel_bin : ℚ
  slope_mel_per_sec : ℚ
  /-- Variance-valued stand-in for the rounded pitch std, as in
  `LoudnessStats.std_sq_db`. -/
  std_sq_mel : ℚ
  classification : String
  deriving Repr, DecidableEq, Inhabited

structure Segment where
  start_time : ℚ
  end_time : ℚ
  duration : ℚ
  loudness : LoudnessStats
  pitch : PitchStats
  deriving Repr, DecidableEq, Inhabited

/-- Loudness classifier for one segment, `_classify_segment_loudness`
lines 778-801.  `std < 3` / `std > 5` are embedded exactly as `var < 9` /
`var > 25`.  `torch.argmax` resolves ties to the first maximal index. -/
def classify_segment_loudness (slope var : ℚ) (energy : List ℚ) : String :=
  let maxIdx := argmaxIdx energy
  let isCenteredPeak :=
    1 / 5 < (maxIdx : ℚ) / energy.length ∧ (maxIdx : ℚ) / energy.length < 4 / 5
  let peakProminence := (maxO energy).getD 0 - meanQ energy
  if 10 < peakProminence ∧ isCenteredPeak then "surge"
  else if |slope| < 1 ∧ var < 9 then "steady"
  else if 2 < slope then "crescendo"
  else if slope < -2 then "decrescendo"
  else if 25 < var then "varying"
  else "steady"

/-- Pitch classifier for one segment, `_classify_segment_pitch` lines
803-814, with `std < 2` / `std > 4` embedded as `var < 4` / `var > 16`. -/
def classify_segment_pitch (slope var : ℚ) : String :=
  if |slope| < 1 / 2 ∧ var < 4 then "stable"
  else if 1 < slope then "rising"
  else if slope < -1 then "falling"
  else if 16 < var then "varying"
  else "stable"

/-- Per-segment statistics, `_compute_segment_statistics` lines 710-768.
Times are `frame index × frame duration` rounded to 2 decimals; dB/bin
scalars are rounded to 1 decimal (pitch slope to 2); the regression runs
on the unrounded values against `x = linspace 0 duration len`. -/
def computeSegStats (en cen : List ℚ) (s t : ℕ) (fd : ℚ) : Segment :=
  let startT := (s : ℚ) * fd
  let endT := (t : ℚ) * fd
  let dur := endT - startT
  let x := linspace 0 dur en.length
  let lslope := slopeClamped x en
  let lvar := sampleVar en
  let pslope := slopeClamped x cen
  let pvar := sampleVar cen
  { start_time := round2 startT
    end_time := round2 endT
    duration := round2 dur
    loudness :=
      { mean_db := round1 (meanQ en)
        start_db := round1 (en.headD 0)
        end_db := round1 (en.getLastD 0)
        slope_db_per_sec := round1 lslope
        std_sq_db := lvar
        classification := classify_segment_loudness lslope lvar en }
    pitch :=
      { mean_mel_bin := round1 (meanQ cen)
        start_mel_bin := round1 (cen.headD 0)
        end_mel_bin := round1 (cen.getLastD 0)
        slope_mel_per_sec := round2 pslope
        std_sq_mel := pvar
        classification := classify_segment_pitch pslope pvar } }

/-- Stage 3 of `extract_temporal_segments` (lines 614-639): one segment per
pair of consecutive changepoints, skipping intervals shorter than
`min_segment_frames`; the data slices are `curve[start:end]`. -/
def mkSegments (e c : List ℚ) (fd : ℚ) (minGap : ℕ) (cps : List ℕ) :
    List Segment :=
  (cps.zip cps.tail).filterMap (fun p =>
    if p.2 - p.1 < minGap then none
    else some (computeSegStats ((e.drop p.1).take (p.2 - p.1))
      ((c.drop p.1).take (p.2 - p.1)) p.1 p.2 fd))

/-- Fusion similarity test, lines 831-841: compares the stored (rounded)
slope and mean fields of the two segment dicts. -/
def shouldFuse (lt pt : ℚ) (prev seg : Segment) : Bool :=
  decide (|seg.loudness.slope_db_per_sec - prev.loudness.slope_db_per_sec| < lt) &&
  decide (|seg.loudness.mean_db - prev.loudness.mean_db| < 5) &&
  decide (|seg.pitch.slope_mel_per_sec - prev.pitch.slope_mel_per_sec| < pt)

/-- The in-place merge of lines 843-853: extend the previous segment's end
time, recompute its duration, and average the two mean fields; every other
field of `prev` is left untouched. -/
def fuseInto (prev seg : Segment) : Segment :=
  { prev with
    end_time := seg.end_time
    duration := round2 (seg.end_time - prev.start_time)
    loudness := { prev.loudness with
      mean_db := round1 ((prev.loudness.mean_db + seg.loudness.mean_db) / 2) }
    pitch := { prev.pitch with
      mean_mel_bin := round1 ((prev.pitch.mean_mel_bin + seg.pitch.mean_mel_bin) / 2) } }

/-- Left-to-right fusion scan; `prev` is the (possibly already fused) last
element of the accumulated output, exactly the `fused[-1]` alias of the
source loop. -/
def fuseGo (lt pt : ℚ) : Segment → List Segment → List Segment → List Segment
  | prev, acc, [] => acc ++ [prev]
  | prev, acc, seg :: rest =>
    if shouldFuse lt pt prev seg then fuseGo lt pt (fuseInto prev seg) acc rest
    else fuseGo lt pt seg (acc ++ [prev]) rest

/-- Fusion of consecutive similar segments, `_fuse_similar_segments`
lines 816-857 (lists of length ≤ 1 are returned unchanged). -/
def fuse_similar_segments (lt pt : ℚ) (segs : List Segment) : List Segment :=
  match segs with
  | [] => []
  | s :: rest => fuseGo lt pt s [] rest

/-- The merged segment of lines 881-911: boundary statistics from the outer
edges, end-to-end recomputed slopes, averaged means/stds, classifications
inherited from the first of the pair. -/
def mergedPair (s1 s2 : Segment) : Segment :=
  { start_time := s1.start_time
    end_time := s2.end_time
    duration := round2 (s2.end_time - s1.start_time)
    loudness :=
      { mean_db := round1 ((s1.loudness.mean_db + s2.loudness.mean_db) / 2)
        start_db := s1.loudness.start_db
        end_db := s2.loudness.end_db
        slope_db_per_sec := round1 ((s2.loudness.end_db - s1.loudness.start_db) /
          (s2.end_time - s1.start_time))
        std_sq_db := (s1.loudness.std_sq_db + s2.loudness.std_sq_db) / 2
        classification := s1.loudness.classification }
    pitch :=
      { mean_mel_bin := round1 ((s1.pitch.mean_mel_bin + s2.pitch.mean_mel_bin) / 2)
        start_mel_bin := s1.pitch.start_mel_bin
        end_mel_bin := s2.pitch.end_mel_bin
        slope_mel_per_sec := round2 ((s2.pitch.end_mel_bin - s1.pitch.start_mel_bin) /
          (s2.end_time - s1.start_time))
        std_sq_mel := (s1.pitch.std_sq_mel + s2.pitch.std_sq_mel) / 2
        classification := s1.pitch.classification } }

/-- Scan for the first strict minimum: `i` is the index of the next
element, `best`/`bv` the best index and value so far (the source updates
only on a strict decrease, so ties keep the earlier index). -/
def findMinIdxAux : ℕ → ℕ → ℚ → List ℚ → ℕ
  | _, best, _, [] => best
  | i, best, bv, x :: rest =>
    if x < bv then findMinIdxAux (i + 1) i x rest
    else findMinIdxAux (i + 1) best bv rest

/-- Index of the most similar adjacent pair, lines 866-875: first index
realising the minimum adjacent difference of mean loudness.  The source
initialises `min_diff = inf`, so the first difference always becomes the
initial best; an empty difference list (fewer than two segments, where the
source would go on to raise an `IndexError`) yields 0. -/
def findMergeIdx (segs : List Segment) : ℕ :=
  match (segs.zip segs.tail).map
    (fun p => |p.1.loudness.mean_db - p.2.loudness.mean_db|) with
  | [] => 0
  | d :: rest => findMinIdxAux 1 0 d rest

/-- One iteration of the merge-reduction loop, lines 865-914.  The `getD`
defaults are unreachable for lists of length ≥ 2 (for shorter lists the
source would raise an `IndexError`, excluded by `max_segments ≥ 1`). -/
def mergeOnce (segs : List Segment) : List Segment :=
  let i := findMergeIdx segs
  segs.take i ++ [mergedPair (segs.getD i default) (segs.getD (i + 1) default)] ++
    segs.drop (i + 2)

/-- Fuelled version of the `while len(segments) > max_segments` loop; the
fuel is the initial length, which bounds the iteration count since every
merge removes exactly one segment. -/
def mergeLoop (maxS : ℕ) : ℕ → List Segment → List Segment
  | 0, segs => segs
  | fuel + 1, segs =>
    if segs.length ≤ maxS then segs else mergeLoop maxS fuel (mergeOnce segs)

/-- Merge-reduction to the segment cap, `_merge_to_max_segments`
lines 859-916. -/
def merge_to_max_segments (segs : List Segment) (maxS : ℕ) : List Segment :=
  mergeLoop maxS segs.length segs

/-- The `min_segment_frames` computation of line 590:
`int(min_segment_duration / frame_duration)` (truncation = floor for the
positive values involved). -/
def minSegmentFrames (fd minSegDur : ℚ) : ℕ := (⌊minSegDur / fd⌋).toNat

/-- Temporal segmentation, `extract_temporal_segments` lines 562-652, on
the derived dB-energy and centroid curves (the source computes those two
curves from the matrix and everything after is exactly this function;
pipeline theorems instantiate `e`/`c` with `energyDbCurve`/
`centroidOverTime`).  Defaults: `minSegDur = 1/2`, `maxSegs = 8`,
`lt = pt = 2`. -/
def extract_temporal_segments (e c : List ℚ) (fd minSegDur : ℚ)
    (maxSegs : ℕ) (lt pt : ℚ) : Except String (List Segment) := do
  let minGap := minSegmentFrames fd minSegDur
  let cps ← detect_changepoints e c lt pt minGap
  let fused := fuse_similar_segments lt pt (mkSegments e c fd minGap cps)
  .ok (if maxSegs < fused.length then merge_to_max_segments fused maxSegs else fused)

/-! ## Event (peak) detector (`detect_salient_events`, lines 918-990) -/

structure EventStats where
  num_peaks : ℕ
  peak_times : List ℚ
  peak_magnitudes : List ℚ
  deriving Repr, DecidableEq

/-- Strict-local-maximum candidates with prominence, lines 949-961:
interior frames `1 ≤ i ≤ n-2` that strictly exceed both neighbours, with
prominence measured against the larger of the left/right window minima
(window 10); candidates are kept when prominence ≥ `minProm`.  The ℕ
subtraction `i - 10` is Python's `max(0, i - 10)`. -/
def peakCandidates (pot : List ℚ) (minProm : ℚ) : List (ℕ × ℚ × ℚ) :=
  ((List.range (pot.length - 1)).filter (fun i => decide (1 ≤ i))).filterMap (fun i =>
    if pot.getD (i - 1) 0 < pot.getD i 0 ∧ pot.getD (i + 1) 0 < pot.getD i 0 then
      let leftMin := ((pot.drop (i - 10)).take (i - (i - 10))).foldl min (pot.getD i 0)
      let rightMin :=
        match (pot.drop (i + 1)).take (min pot.length (i + 11) - (i + 1)) with
        | [] => 0
        | x :: xs => xs.foldl min x
      let prom := pot.getD i 0 - max leftMin rightMin
      if minProm ≤ prom then some (i, pot.getD i 0, prom) else none
    else none)

/-- The greedy selection loop of lines 966-975: scan candidates in
magnitude order, keep one iff it is at least `minSpacing` frames from every
already kept peak, stop once `numPeaks` have been kept (the length test
runs after the conditional append, as in the source). -/
def greedyPick (numPeaks minSpacing : ℕ) :
    List (ℕ × ℚ × ℚ) → List (ℕ × ℚ × ℚ) → List (ℕ × ℚ × ℚ)
  | [], acc => acc
  | p :: rest, acc =>
    let acc' := if acc.any (fun q => Nat.dist p.1 q.1 < minSpacing) then acc
                else acc ++ [p]
    if numPeaks ≤ acc'.length then acc' else greedyPick numPeaks minSpacing rest acc'

/-- Salient-event detection, `detect_salient_events` lines 918-990.
Defaults: `numPeaks = 3`, `promRatio = 3/20`, `minIET = 1/5` seconds
(converted to frames via `int(minIET / fd)`).  Both sorts stable
(Python `list.sort`); `np.max`/`np.min` raise on an empty curve
(zero-frame clip).  Reported magnitudes are `10·log10(power + eps)` via
the abstract `log10`. -/
def detect_salient_events (pot : List ℚ) (l10 : ℚ → ℚ) (fd : ℚ)
    (numPeaks : ℕ) (promRatio minIET : ℚ) : Except String EventStats :=
  match maxO pot, minO pot with
  | some mx, some mn =>
    let minProm := promRatio * (mx - mn)
    let minSpacing := (⌊minIET / fd⌋).toNat
    let bySize := (peakCandidates pot minProm).mergeSort
      (fun a b => decide (b.2.1 ≤ a.2.1))
    let picked := greedyPick numPeaks minSpacing bySize []
    let byTime := picked.mergeSort (fun a b => decide (a.1 ≤ b.1))
    .ok { num_peaks := byTime.length
          peak_times := byTime.map (fun p => (p.1 : ℚ) * fd)
          peak_magnitudes := byTime.map (fun p => 10 * l10 (p.2.1 + eps)) }
  | _, _ => .error "zero-size array reduction"

/-! ## Band energy distribution (`extract_energy_distribution`,
lines 124-156) -/

/-- NaN-aware `torch.std`: NaN (`none`) on empty or singleton tensors,
`sqrt` of the unbiased variance otherwise (value through the abstract
square root). -/
def stdO (sqrtq : ℚ → ℚ) (l : List ℚ) : Option ℚ :=
  if l.length ≤ 1 then none else some (sqrtq (sampleVar l))

structure GroupStats where
  energy_mean : Option ℚ
  energy_std : Option ℚ
  energy_max : Option ℚ
  temporal_std : Option ℚ
  deriving Repr, DecidableEq

/-- Per-band-group energy statistics, lines 124-156.  The group table
(`mel_bin_groups` of the external `shared_audio_config`, not part of the
sources) is a parameter: a list of `[startBin, endBin)` ranges, modelled
from the spec.  Spatial statistics run over all dB cells of the slice;
temporal ones over the per-frame mean of the slice.  An out-of-range group
slices to an empty tensor whose statistics are NaN (`none`). -/
def extract_energy_distribution (ops : RealOps) (groups : List (ℕ × ℕ))
    (M : List (List ℚ)) : List GroupStats :=
  groups.map (fun g =>
    let rows := ((M.drop g.1).take (g.2 - g.1)).map (fun r =>
      r.map (fun x => 10 * ops.l10 (x + eps)))
    let cells := rows.flatten
    let bandOverTime := (List.range (rows.headD []).length).map (fun j =>
      meanQ (rows.map (fun r => r.getD j 0)))
    { energy_mean := meanO cells
      energy_std := stdO ops.sqrtq cells
      energy_max := maxO bandOverTime
      temporal_std := stdO ops.sqrtq bandOverTime })

/-! ## Whole-clip temporal statistics (`extract_temporal_statistics`,
lines 158-183) -/

structure TemporalStats where
  mean : ℚ
  std : Option ℚ
  emax : ℚ
  emin : ℚ
  erange : ℚ
  variance : Option ℚ
  deriving Repr, DecidableEq

/-- Whole-clip dB statistics, lines 158-183; `torch.max` raises on a
zero-frame clip.  `std`/`variance` are NaN for a single frame. -/
def extract_temporal_statistics (ops : RealOps) (M : List (List ℚ)) :
    Except String TemporalStats :=
  let edb := energyDbCurve ops.l10 M
  match maxO edb, minO edb with
  | some mx, some mn =>
    .ok { mean := meanQ edb
          std := stdO ops.sqrtq edb
          emax := mx
          emin := mn
          erange := mx - mn
          variance := if edb.length ≤ 1 then none else some (sampleVar edb) }
  | _, _ => .error "max(): empty tensor"

/-! ## Spectral shape analyzer (`extract_spectral_characteristics`,
lines 185-261), rational embedding for the pipeline -/

structure SpectralStats where
  centroid : ℚ
  spread : ℚ
  skewness : ℚ
  kurtosis : ℚ
  dominant : ℕ
  concentration : ℚ
  entropy : ℚ
  flatness : ℚ
  deriving Repr, DecidableEq

/-- Spectral characteristics, lines 185-261, with the transcendental
values routed through `RealOps` (the real-valued theorems about this stage
use the `...R` embedding below).  All reachable inputs have
`numBands ≥ 1`, so `argmaxIdx`/`maxO` defaults are never taken. -/
def extract_spectral_characteristics (ops : RealOps) (M : List (List ℚ)) :
    SpectralStats :=
  let ppb := M.map (fun r => meanQ r + eps)
  let bins := (List.range ppb.length).map (fun i => (i : ℚ))
  let psum := ppb.sum
  let prob := if 0 < psum then ppb.map (· / psum)
              else ppb.map (fun _ => 1 / (ppb.length : ℚ))
  let centroid := ((bins.zipWith (· * ·) prob).sum)
  let spread := ops.sqrtq (((bins.map (fun i => (i - centroid) ^ 2)).zipWith (· * ·) prob).sum)
  let pmean := meanQ ppb
  { centroid := centroid
    spread := spread
    skewness := if eps < spread then
        (((bins.map (fun i => (i - centroid) ^ 3)).zipWith (· * ·) prob).sum) / spread ^ 3
      else 0
    kurtosis := if eps < spread then
        (((bins.map (fun i => (i - centroid) ^ 4)).zipWith (· * ·) prob).sum) / spread ^ 4 - 3
      else 0
    dominant := argmaxIdx ppb
    concentration := (maxO ppb).getD 0 / clampMin pmean eps
    entropy := -((prob.map (fun p => p * ops.l2 (clampMin p eps))).sum)
    flatness := ops.expq (meanQ (ppb.map ops.ln)) / clampMin pmean eps }

/-! ## Temporal trajectories (`extract_temporal_trajectories`,
lines 339-434) -/

structure TrajStats where
  envelope_shape : String
  envelope_trajectory : List ℚ
  pitch_movement : String
  pitch_trajectory : List ℚ
  rhythm_regularity : ℚ
  rhythm_type : String
  deriving Repr, DecidableEq

/-- Trajectory features, lines 339-434.  Sampling indices are
`linspace(0, n-1, 10).long()` (truncation = floor on the nonnegative
values involved).  The pitch-movement classifier raises on single-frame
clips. -/
def extract_temporal_trajectories (ops : RealOps) (M : List (List ℚ)) :
    Except String TrajStats := do
  let pot := (powerOverTime M).map (· + eps)
  let en := energyNormalized (pot.map (fun p => 10 * ops.l10 p))
  let idx := (linspace 0 ((en.length : ℚ) - 1) 10).map (fun q => (⌊q⌋).toNat)
  let cot := centroidOverTime M
  let movement ← classify_pitch_movement cot
  let rhythm := rhythmFeatures ops.sqrtq pot
  .ok { envelope_shape := classify_envelope_shape en
        envelope_trajectory := idx.map (fun i => en.getD i 0)
        pitch_movement := movement
        pitch_trajectory := idx.map (fun i => cot.getD i 0)
        rhythm_regularity := rhythm.1
        rhythm_type := rhythm.2 }

/-! ## Top-level orchestration (`extract_all_features`, lines 992-1047) -/

structure MelFeatures where
  energy_distribution : List GroupStats
  temporal : TemporalStats
  silence : SilenceStats
  spectral : SpectralStats
  dynamics : Option (ℚ × ℚ)
  events : EventStats
  trajectories : TrajStats
  temporal_segments : List Segment
  deriving Repr, DecidableEq

/-- Input tensors of rank 1, 2 or 3 (the ranks the shape dispatch of
lines 1008-1012 distinguishes). -/
inductive RawInput where
  | t1 (v : List ℚ)
  | t2 (m : List (List ℚ))
  | t3 (c : List (List (List ℚ)))

/-- The component calls of lines 1021-1029 in source order, gathered into
one record (line 1043); any raising stage aborts the whole extraction, so
no partially populated record can be produced. -/
def extractCore (ops : RealOps) (groups : List (ℕ × ℕ)) (fd : ℚ)
    (mel_power : List (List ℚ)) : Except String MelFeatures := do
  let energyF := extract_energy_distribution ops groups mel_power
  let temporalF ← extract_temporal_statistics ops mel_power
  let spectralF := extract_spectral_characteristics ops mel_power
  let dynamicsF := extract_temporal_dynamics mel_power
  let silenceF ← detect_silence mel_power
  let eventsF ← detect_salient_events (powerOverTime mel_power) ops.l10 fd 3 (3 / 20) (1 / 5)
  let trajF ← extract_temporal_trajectories ops mel_power
  let segsF ← extract_temporal_segments (energyDbCurve ops.l10 mel_power)
    (centroidOverTime mel_power) fd (1 / 2) 8 2 2
  .ok { energy_distribution := energyF
        temporal := temporalF
        silence := silenceF
        spectral := spectralF
        dynamics := dynamicsF
        events := eventsF
        trajectories := trajF
        temporal_segments := segsF }

/-- Shape dispatch and extraction, `extract_all_features` lines 992-1043.

* rank 3: `squeeze(0)` removes the leading axis exactly when it has size 1
  and extraction proceeds on the remaining 2-D matrix.  When the leading
  axis has size ≠ 1 the squeeze is a no-op and the 3-D tensor flows on
  until `detect_silence` trips over an ambiguous tensor truth value; we
  reflect that eventual failure as an immediate error and state no theorem
  about this branch;
* rank 1: immediate `ValueError`;
* `is_db = true` converts via `10 ** (x/10)` (the abstract `pow10`). -/
def extract_all_features (ops : RealOps) (groups : List (ℕ × ℕ)) (fd : ℚ)
    (inp : RawInput) (is_db : Bool) : Except String MelFeatures :=
  let toPow := fun (m : List (List ℚ)) =>
    if is_db then m.map (fun r => r.map ops.pow10) else m
  match inp with
  | .t1 _ => .error "Expected 2D mel-spectrogram, got 1D"
  | .t2 m => extractCore ops groups fd (toPow m)
  | .t3 c =>
    if c.length = 1 then extractCore ops groups fd (toPow (c.headD []))
    else .error "unmodelled: 3D input whose leading dimension is not 1"

/-- Well-formed `b × f` energy matrix (the spec's validity invariant:
`numBands`, `numFrames > 0`). -/
def Wf (M : List (List ℚ)) (b f : ℕ) : Prop :=
  M.length = b ∧ 0 < b ∧ 0 < f ∧ ∀ r ∈ M, r.length = f

/-- The all-zero `b × f` energy matrix. -/
def allZero (b f : ℕ) : List (List ℚ) :=
  List.replicate b (List.replicate f 0)

/-! ## Real-valued embedding of the spectral shape analyzer

A second, faithful embedding of `extract_spectral_characteristics`
(lines 185-261) over `ℝ`, used for the value-level claims about spread /
skewness / kurtosis / entropy, with `Real.sqrt` and `Real.logb` in place
of the abstract operations. -/

/-- Lines 196: per-bin mean linear power plus epsilon, over ℝ. -/
noncomputable def powerPerBinR (M : List (List ℚ)) : List ℝ :=
  M.map (fun r => ((r.map (fun (x : ℚ) => (x : ℝ))).sum / r.length) + (eps : ℚ))

/-- Lines 202-207: the probability-like normalisation. -/
noncomputable def probR (M : List (List ℚ)) : List ℝ :=
  let ppb := powerPerBinR M
  if 0 < ppb.sum then ppb.map (· / ppb.sum)
  else ppb.map (fun _ => 1 / (ppb.length : ℝ))

/-- Line 210: spectral centroid. -/
noncomputable def centroidR (M : List (List ℚ)) : ℝ :=
  ((((List.range (powerPerBinR M).length).map (fun i => (i : ℝ))).zipWith (· * ·) (probR M)).sum)

/-- Lines 213-215: spectral spread. -/
noncomputable def spreadR (M : List (List ℚ)) : ℝ :=
  Real.sqrt ((((List.range (powerPerBinR M).length).map
    (fun i => ((i : ℝ) - centroidR M) ^ 2)).zipWith (· * ·) (probR M)).sum)

/-- Lines 217-223: spectral skewness, zero when the spread does not exceed
epsilon. -/
noncomputable def skewnessR (M : List (List ℚ)) : ℝ :=
  if (eps : ℚ) < spreadR M then
    ((((List.range (powerPerBinR M).length).map
      (fun i => ((i : ℝ) - centroidR M) ^ 3)).zipWith (· * ·) (probR M)).sum) / spreadR M ^ 3
  else 0

/-- Lines 225-231: excess spectral kurtosis, zero when the spread does not
exceed epsilon. -/
noncomputable def kurtosisR (M : List (List ℚ)) : ℝ :=
  if (eps : ℚ) < spreadR M then
    ((((List.range (powerPerBinR M).length).map
      (fun i => ((i : ℝ) - centroidR M) ^ 4)).zipWith (· * ·) (probR M)).sum) / spreadR M ^ 4 - 3
  else 0

/-- Lines 240-242: spectral entropy in bits. -/
noncomputable def entropyR (M : List (List ℚ)) : ℝ :=
  -(((probR M).map (fun p => p * Real.logb 2 (max p (eps : ℚ)))).sum)

/-- Merging the adjacent pair at index `i`: the specification-side form of
the `mergeOnce` splice, shown equal to it for in-range indices and used
for structural induction. -/
def mergeAt : ℕ → List Segment → List Segment
  | 0, s1 :: s2 :: t => mergedPair s1 s2 :: t
  | n + 1, s :: t => s :: mergeAt n t
  | _, l => l

/-- All gaps between consecutive changepoints except possibly the final
one are at least `g` — the shape `_detect_changepoints` produces: the scan
enforces the minimum gap and only the appended last frame may be closer. -/
def GapsOK (g : ℕ) : List ℕ → Prop
  | x :: y :: rest => (rest ≠ [] → x + g ≤ y) ∧ GapsOK g (y :: rest)
  | _ => True

/-! ## Concrete inputs used by witnesses and counterexamples -/

/-- Concrete segment used to witness claim 10's hypothesis. -/
def segA : Segment :=
  { start_time := 0, end_time := 1, duration := 1
    loudness := { mean_db := -40, start_db := -41, end_db := -39
                  slope_db_per_sec := 1, std_sq_db := 4, classification := "steady" }
    pitch := { mean_mel_bin := 20, start_mel_bin := 19, end_mel_bin := 21
               slope_mel_per_sec := 1, std_sq_mel := 1, classification := "stable" } }

/-- Second concrete segment for the claim-10 witness (similar enough to
fuse with `segA` under the default thresholds). -/
def segB : Segment :=
  { start_time := 1, end_time := 2, duration := 1
    loudness := { mean_db := -42, start_db := -43, end_db := -38
                  slope_db_per_sec := 2, std_sq_db := 9, classification := "crescendo" }
    pitch := { mean_mel_bin := 21, start_mel_bin := 20, end_mel_bin := 22
               slope_mel_per_sec := 2, std_sq_mel := 2, classification := "rising" } }

/-- The monotone linear ramp that refutes claim C4 as stated. -/
def rampCurve : List ℚ :=
  [0, 1/9, 2/9, 3/9, 4/9, 5/9, 6/9, 7/9, 8/9, 1]

/-- The monotone step curve witnessing claim C4's amended hypotheses. -/
def stepCurve : List ℚ :=
  [0, 1/2, 1/2, 1/2, 1/2, 1/2, 1/2, 1/2, 1/2, 1]

/-- A concrete instantiation of the abstract transcendental operations,
used only to state closed counterexamples and witnesses; the control flow
those theorems exercise is independent of this choice (the general
theorems quantify over all `RealOps`). -/
def opsId : RealOps := ⟨id, id, id, id, id, id⟩

/-! # Theorems -/

/-! ## Claim 10: frame effect of segment fusion -/

/-- Claim C10: when fusion merges a segment into its predecessor, only the
predecessor's end time, duration, loudness mean and pitch mean change; its
start time, start/end dB, loudness slope, loudness std, loudness
classification and the analogous pitch fields keep the first segment's
values — in particular the fused segment's `end_db` / `end_mel_bin` are
not recomputed at the new end time. -/
theorem claim10_fusion_frame_effect (lt pt : ℚ) (s1 s2 : Segment)
    (h : shouldFuse lt pt s1 s2 = true) :
    fuse_similar_segments lt pt [s1, s2] = [fuseInto s1 s2] ∧
    (fuseInto s1 s2).end_time = s2.end_time ∧
    (fuseInto s1 s2).duration = round2 (s2.end_time - s1.start_time) ∧
    (fuseInto s1 s2).loudness.mean_db =
      round1 ((s1.loudness.mean_db + s2.loudness.mean_db) / 2) ∧
    (fuseInto s1 s2).pitch.mean_mel_bin =
      round1 ((s1.pitch.mean_mel_bin + s2.pitch.mean_mel_bin) / 2) ∧
    (fuseInto s1 s2).start_time = s1.start_time ∧
    (fuseInto s1 s2).loudness.start_db = s1.loudness.start_db ∧
    (fuseInto s1 s2).loudness.end_db = s1.loudness.end_db ∧
    (fuseInto s1 s2).loudness.slope_db_per_sec = s1.loudness.slope_db_per_sec ∧
    (fuseInto s1 s2).loudness.std_sq_db = s1.loudness.std_sq_db ∧
    (fuseInto s1 s2).loudness.classification = s1.loudness.classification ∧
    (fuseInto s1 s2).pitch.start_mel_bin = s1.pitch.start_mel_bin ∧
    (fuseInto s1 s2).pitch.end_mel_bin = s1.pitch.end_mel_bin ∧
    (fuseInto s1 s2).pitch.slope_mel_per_sec = s1.pitch.slope_mel_per_sec ∧
    (fuseInto s1 s2).pitch.std_sq_mel = s1.pitch.std_sq_mel ∧
    (fuseInto s1 s2).pitch.classification = s1.pitch.classification := by
  refine ⟨?_, rfl, rfl, rfl, rfl, rfl, rfl, rfl, rfl, rfl, rfl, rfl, rfl, rfl, rfl, rfl⟩
  simp [fuse_similar_segments, fuseGo, h]

/-- Witness for claim 10 at the concrete segments `segA`, `segB`. -/
theorem claim10_fusion_frame_effect_witness :
    shouldFuse (2 : ℚ) 2 segA segB = true ∧
    (fuse_similar_segments 2 2 [segA, segB] = [fuseInto segA segB] ∧
    (fuseInto segA segB).end_time = segB.end_time ∧
    (fuseInto segA segB).duration = round2 (segB.end_time - segA.start_time) ∧
    (fuseInto segA segB).loudness.mean_db =
      round1 ((segA.loudness.mean_db + segB.loudness.mean_db) / 2) ∧
    (fuseInto segA segB).pitch.mean_mel_bin =
      round1 ((segA.pitch.mean_mel_bin + segB.pitch.mean_mel_bin) / 2) ∧
    (fuseInto segA segB).start_time = segA.start_time ∧
    (fuseInto segA segB).loudness.start_db = segA.loudness.start_db ∧
    (fuseInto segA segB).loudness.end_db = segA.loudness.end_db ∧
    (fuseInto segA segB).loudness.slope_db_per_sec = segA.loudness.slope_db_per_sec ∧
    (fuseInto segA segB).loudness.std_sq_db = segA.loudness.std_sq_db ∧
    (fuseInto segA segB).loudness.classification = segA.loudness.classification ∧
    (fuseInto segA segB).pitch.start_mel_bin = segA.pitch.start_mel_bin ∧
    (fuseInto segA segB).pitch.end_mel_bin = segA.pitch.end_mel_bin ∧
    (fuseInto segA segB).pitch.slope_mel_per_sec = segA.pitch.slope_mel_per_sec ∧
    (fuseInto segA segB).pitch.std_sq_mel = segA.pitch.std_sq_mel ∧
    (fuseInto segA segB).pitch.classification = segA.pitch.classification) := by
  have h : shouldFuse (2 : ℚ) 2 segA segB = true := by
    norm_num [shouldFuse, segA, segB]
  exact ⟨h, claim10_fusion_frame_effect 2 2 segA segB h⟩

/-! ## Claim 6: active-region counting -/

/-- The transition count of `runsAux` seeded with `prev` equals the
silent-to-active transition count of the flag list with `prev`
prepended. -/
theorem runsAux_eq_transCount (l : List Bool) : ∀ x : Bool,
    runsAux x l = ((x :: l).zipWith (fun p q => !p && q) (x :: l).tail).count true := by
  induction l with
  | nil => intro x; simp [runsAux]
  | cons y rest ih =>
    intro x
    have h := ih y
    simp only [runsAux, List.tail_cons, List.zipWith, List.count_cons] at h ⊢
    rw [h]
    cases x <;> cases y <;> simp [Nat.add_comm]

/-- A list of all-true flags scanned from a true previous flag starts no
new run. -/
theorem runsAux_true_of_all_true (l : List Bool) (h : ∀ x ∈ l, x = true) :
    runsAux true l = 0 := by
  induction l with
  | nil => rfl
  | cons y rest ih =>
    have hy : y = true := h y (List.mem_cons_self _ _)
    subst hy
    have hr := ih (fun x hx => h x (List.mem_cons_of_mem _ hx))
    simp [runsAux, hr]

/-- Splitting the run count at the head flag. -/
theorem countTrueRuns_cons (first : Bool) (rest : List Bool) :
    countTrueRuns (first :: rest) =
      ((first :: rest).zipWith (fun p q => !p && q) (first :: rest).tail).count true +
        (if first then 1 else 0) := by
  unfold countTrueRuns
  rw [show runsAux false (first :: rest) =
      (if first then 1 else 0) + runsAux first rest by cases first <;> simp [runsAux]]
  rw [runsAux_eq_transCount rest first]
  exact Nat.add_comm _ _

/-- Claim C6: the reported number of active regions is the silent-to-active
transition count plus one when the first frame is active — equivalently,
the number of maximal active runs; consequently a clip whose frames are all
active counts exactly one region. -/
theorem claim6_active_regions (M : List (List ℚ)) (first : Bool) (rest : List Bool)
    (ha : isActiveList M = first :: rest) :
    (detect_silence M).map (fun st => st.num_active_regions) =
      .ok (((isActiveList M).zipWith (fun p q => !p && q) (isActiveList M).tail).count true +
        (if first then 1 else 0)) ∧
    (detect_silence M).map (fun st => st.num_active_regions) =
      .ok (countTrueRuns (isActiveList M)) ∧
    ((∀ x ∈ isActiveList M, x = true) →
      (detect_silence M).map (fun st => st.num_active_regions) = .ok 1) := by
  have hcode : (detect_silence M).map (fun st => st.num_active_regions) =
      .ok (((isActiveList M).zipWith (fun p q => !p && q) (isActiveList M).tail).count true +
        (if first then 1 else 0)) := by
    simp only [detect_silence, ha, Except.map]
  refine ⟨hcode, ?_, ?_⟩
  · rw [hcode, ha, countTrueRuns_cons]
  · intro hall
    rw [ha] at hall
    have hfirst : first = true := hall first (List.mem_cons_self _ _)
    subst hfirst
    have hrest : runsAux true rest = 0 :=
      runsAux_true_of_all_true rest (fun x hx => hall x (List.mem_cons_of_mem _ hx))
    have htc := runsAux_eq_transCount rest true
    rw [hrest] at htc
    rw [hcode, ha]
    simp only [List.tail_cons] at htc ⊢
    rw [← htc]
    simp

/-- Witness for claim 6 on a 2 × 2 all-ones matrix (both frames active). -/
theorem claim6_active_regions_witness :
    isActiveList [[(1 : ℚ), 1], [1, 1]] = [true, true] ∧
    ((detect_silence [[(1 : ℚ), 1], [1, 1]]).map (fun st => st.num_active_regions) =
      .ok (((isActiveList [[(1 : ℚ), 1], [1, 1]]).zipWith (fun p q => !p && q)
          (isActiveList [[(1 : ℚ), 1], [1, 1]]).tail).count true +
        (if true then 1 else 0)) ∧
    (detect_silence [[(1 : ℚ), 1], [1, 1]]).map (fun st => st.num_active_regions) =
      .ok (countTrueRuns (isActiveList [[(1 : ℚ), 1], [1, 1]])) ∧
    ((∀ x ∈ isActiveList [[(1 : ℚ), 1], [1, 1]], x = true) →
      (detect_silence [[(1 : ℚ), 1], [1, 1]]).map (fun st => st.num_active_regions) = .ok 1)) := by
  have ha : isActiveList [[(1 : ℚ), 1], [1, 1]] = [true, true] := by
    norm_num [isActiveList, powerOverTime, meanQ, eps, silenceThresholdPow, List.range_succ]
  exact ⟨ha, claim6_active_regions [[(1 : ℚ), 1], [1, 1]] true [true] ha⟩

/-! ## Claim 5: peak detector -/

/-- The greedy selection preserves the pairwise minimum-spacing invariant
of the accumulated peaks. -/
theorem greedyPick_pairwise (np ms : ℕ) :
    ∀ (l acc : List (ℕ × ℚ × ℚ)),
      acc.Pairwise (fun p q => ms ≤ Nat.dist p.1 q.1) →
      (greedyPick np ms l acc).Pairwise (fun p q => ms ≤ Nat.dist p.1 q.1) := by
  intro l
  induction l with
  | nil => intro acc h; exact h
  | cons p rest ih =>
    intro acc h
    have hstep : ∀ acc2 : List (ℕ × ℚ × ℚ),
        acc2.Pairwise (fun p q => ms ≤ Nat.dist p.1 q.1) →
        (if np ≤ acc2.length then acc2 else greedyPick np ms rest acc2).Pairwise
          (fun p q => ms ≤ Nat.dist p.1 q.1) := by
      intro acc2 h2
      split
      · exact h2
      · exact ih _ h2
    rw [greedyPick]
    by_cases hC : (acc.any fun q => decide (Nat.dist p.1 q.1 < ms)) = true
    · simp only [hC, if_true]
      exact hstep acc h
    · rw [Bool.not_eq_true] at hC
      simp only [hC, Bool.false_eq_true, if_false]
      refine hstep _ ?_
      rw [List.pairwise_append]
      refine ⟨h, List.pairwise_singleton _ _, ?_⟩
      intro a ha b hb
      rw [List.mem_singleton] at hb; subst hb
      have hfa := (List.any_eq_false.mp hC) a ha
      rw [decide_eq_true_eq] at hfa
      rw [Nat.dist_comm]
      omega

/-- The greedy selection never exceeds the requested number of peaks
(`numPeaks ≥ 1`). -/
theorem greedyPick_length (np ms : ℕ) :
    ∀ (l acc : List (ℕ × ℚ × ℚ)), acc.length < np →
      (greedyPick np ms l acc).length ≤ np := by
  intro l
  induction l with
  | nil => intro acc h; exact le_of_lt h
  | cons p rest ih =>
    intro acc h
    rw [greedyPick]
    by_cases hC : (acc.any fun q => decide (Nat.dist p.1 q.1 < ms)) = true
    · simp only [hC, if_true]
      split
      · omega
      · exact ih _ h
    · rw [Bool.not_eq_true] at hC
      simp only [hC, Bool.false_eq_true, if_false]
      split
      · rename_i hge
        simp only [List.length_append, List.length_cons, List.length_nil] at hge ⊢
        omega
      · rename_i hlt
        refine ih _ ?_
        simp only [List.length_append, List.length_cons, List.length_nil] at hlt ⊢
        omega

/-- Combined shape of the greedy pick after the final time sort: at most
`np` peaks, indices nondecreasing, and adjacent-in-output indices at least
`ms` frames apart. -/
theorem greedy_sorted_spec (cands : List (ℕ × ℚ × ℚ)) (np ms : ℕ) (hnp : 1 ≤ np) :
    ((greedyPick np ms cands []).mergeSort (fun a b => decide (a.1 ≤ b.1))).length ≤ np ∧
    ((greedyPick np ms cands []).mergeSort (fun a b => decide (a.1 ≤ b.1))).Pairwise
      (fun p q => p.1 + ms ≤ q.1) := by
  have hperm := List.mergeSort_perm (greedyPick np ms cands []) (fun a b => decide (a.1 ≤ b.1))
  constructor
  · rw [List.length_mergeSort]
    exact greedyPick_length np ms cands [] (by simpa using hnp)
  · have hfar : (greedyPick np ms cands []).Pairwise (fun p q => ms ≤ Nat.dist p.1 q.1) :=
      greedyPick_pairwise np ms cands [] List.Pairwise.nil
    have hfar2 := (List.Perm.pairwise_iff
      (fun {x y} h => by rw [Nat.dist_comm] at h; exact h) hperm).mpr hfar
    have hsorted := @List.sorted_mergeSort _
      (fun (a b : ℕ × ℚ × ℚ) => decide (a.1 ≤ b.1))
      (fun a b c hab hbc => by
        rw [decide_eq_true_eq] at hab hbc ⊢; omega)
      (fun a b => by
        rcases Nat.le_total a.1 b.1 with h | h <;> simp [h])
      (greedyPick np ms cands [])
    refine (hsorted.and hfar2).imp ?_
    intro a b hab
    rw [decide_eq_true_eq] at hab
    obtain ⟨hle, hdist⟩ := hab
    rw [Nat.dist_eq_sub_of_le hle] at hdist
    omega

/-- Claim C5: the peak detector returns at most 3 peaks, their reported
times are strictly ascending, and any two reported times differ by at
least the 0.2 s minimum inter-event spacing (20 frames at the 0.01 s frame
duration). -/
theorem claim5_peak_detector (pot : List ℚ) (l10 : ℚ → ℚ) (hne : pot ≠ []) :
    ∃ st, detect_salient_events pot l10 (1 / 100) 3 (3 / 20) (1 / 5) = .ok st ∧
      st.num_peaks ≤ 3 ∧
      st.peak_times.Pairwise (fun s t => s + 1 / 5 ≤ t) ∧
      st.peak_times.Pairwise (· < ·) := by
  obtain ⟨x, xs, rfl⟩ : ∃ x xs, pot = x :: xs := by
    cases pot with
    | nil => exact absurd rfl hne
    | cons x xs => exact ⟨x, xs, rfl⟩
  have hms : ((⌊(1 / 5 : ℚ) / (1 / 100)⌋).toNat) = 20 := by
    have hfl : ⌊(1 / 5 : ℚ) / (1 / 100)⌋ = 20 := by norm_num
    rw [hfl]
    rfl
  simp only [detect_salient_events, maxO, minO, hms]
  refine ⟨_, rfl, ?_, ?_, ?_⟩
  · simpa using (greedy_sorted_spec _ 3 20 (by omega)).1
  · have hp := (greedy_sorted_spec
      ((peakCandidates (x :: xs) ((3 : ℚ) / 20 * (xs.foldl max x - xs.foldl min x))).mergeSort
        (fun a b => decide (b.2.1 ≤ a.2.1))) 3 20 (by omega)).2
    rw [List.pairwise_map]
    refine hp.imp ?_
    intro a b hab
    have : ((a.1 : ℚ) + 20) ≤ (b.1 : ℚ) := by exact_mod_cast hab
    linarith
  · have hp := (greedy_sorted_spec
      ((peakCandidates (x :: xs) ((3 : ℚ) / 20 * (xs.foldl max x - xs.foldl min x))).mergeSort
        (fun a b => decide (b.2.1 ≤ a.2.1))) 3 20 (by omega)).2
    rw [List.pairwise_map]
    refine hp.imp ?_
    intro a b hab
    have : ((a.1 : ℚ) + 20) ≤ (b.1 : ℚ) := by exact_mod_cast hab
    nlinarith

/-- Witness for claim 5 on the three-frame curve `[0, 1, 0]`. -/
theorem claim5_peak_detector_witness :
    ([ (0 : ℚ), 1, 0 ] ≠ []) ∧
    ∃ st, detect_salient_events [(0 : ℚ), 1, 0] (fun _ => 0) (1 / 100) 3 (3 / 20) (1 / 5) =
        .ok st ∧
      st.num_peaks ≤ 3 ∧
      st.peak_times.Pairwise (fun s t => s + 1 / 5 ≤ t) ∧
      st.peak_times.Pairwise (· < ·) :=
  ⟨by simp, claim5_peak_detector [0, 1, 0] (fun _ => 0) (by simp)⟩

/-! ## Lemmas about constant curves (used by claims 1, 2, 3, 7) -/

/-- Forward differences of a constant curve vanish. -/
theorem diffQ_replicate (n : ℕ) (x : ℚ) :
    diffQ (List.replicate n x) = List.replicate (n - 1) 0 := by
  induction n with
  | zero => rfl
  | succ m ih =>
    cases m with
    | zero => rfl
    | succ k =>
      have hstep : diffQ (List.replicate (k + 2) x) =
          (x - x) :: diffQ (List.replicate (k + 1) x) := rfl
      rw [hstep, ih, show x - x = 0 by ring]
      rfl

/-- Mean of a constant nonempty list. -/
theorem meanQ_replicate (n : ℕ) (x : ℚ) (hn : n ≠ 0) :
    meanQ (List.replicate n x) = x := by
  have h : (n : ℚ) ≠ 0 := by exact_mod_cast hn
  simp only [meanQ, List.sum_replicate, List.length_replicate, nsmul_eq_mul]
  field_simp

/-- `torch.max` of a constant nonempty tensor. -/
theorem maxO_replicate (n : ℕ) (x : ℚ) (hn : n ≠ 0) :
    maxO (List.replicate n x) = some x := by
  cases n with
  | zero => exact absurd rfl hn
  | succ m =>
    simp only [List.replicate_succ, maxO]
    congr 1
    induction m with
    | zero => rfl
    | succ k ih => simpa [List.replicate_succ, max_self] using ih

/-- `torch.min` of a constant nonempty tensor. -/
theorem minO_replicate (n : ℕ) (x : ℚ) (hn : n ≠ 0) :
    minO (List.replicate n x) = some x := by
  cases n with
  | zero => exact absurd rfl hn
  | succ m =>
    simp only [List.replicate_succ, minO]
    congr 1
    induction m with
    | zero => rfl
    | succ k ih => simpa [List.replicate_succ, min_self] using ih

/-- Sample variance of a constant list vanishes. -/
theorem sampleVar_replicate (n : ℕ) (x : ℚ) :
    sampleVar (List.replicate n x) = 0 := by
  cases n with
  | zero => simp [sampleVar]
  | succ m =>
    simp only [sampleVar, meanQ_replicate _ _ (Nat.succ_ne_zero m), List.map_replicate]
    rw [show x - x = 0 by ring]
    simp

/-- Min-max normalisation sends a constant curve to the zero curve. -/
theorem energyNormalized_replicate (n : ℕ) (d : ℚ) (hn : n ≠ 0) :
    energyNormalized (List.replicate n d) = List.replicate n 0 := by
  simp only [energyNormalized, maxO_replicate _ _ hn, minO_replicate _ _ hn,
    List.map_replicate]
  rw [show d - d = 0 by ring, zero_div]

/-- Pointwise products against an all-zero list vanish. -/
theorem zipWith_mul_zero (l : List ℚ) : ∀ n : ℕ,
    l.zipWith (· * ·) (List.replicate n 0) = List.replicate (min l.length n) 0 := by
  induction l with
  | nil => intro n; simp
  | cons x xs ih =>
    intro n
    cases n with
    | zero => simp
    | succ m =>
      simp only [List.replicate_succ, List.zipWith, ih m, List.length_cons, mul_zero]
      rw [Nat.succ_min_succ]
      rfl

/-- The regression slope over a constant curve is zero. -/
theorem slopeO_replicate_zero (n : ℕ) (hn : 2 ≤ n) :
    slopeO (List.replicate n 0) = some 0 := by
  have hlen : ¬ (List.replicate n (0 : ℚ)).length ≤ 1 := by
    simp only [List.length_replicate]; omega
  simp only [slopeO, hlen, if_neg, not_false_iff]
  have hmy : meanQ (List.replicate n (0 : ℚ)) = 0 :=
    meanQ_replicate n 0 (by omega)
  rw [hmy]
  have : (List.replicate n (0 : ℚ)).map (fun v => v - 0) = List.replicate n 0 := by
    simp
  rw [this, List.length_replicate, zipWith_mul_zero]
  simp

/-- A constant normalized curve (length ≥ 2) classifies as "steady". -/
theorem classify_envelope_shape_const (n : ℕ) (hn : 2 ≤ n) :
    classify_envelope_shape (List.replicate n 0) = "steady" := by
  have hhalf : n / 2 ≠ 0 := by omega
  have htake : (List.replicate n (0 : ℚ)).take (n / 2) = List.replicate (min (n / 2) n) 0 :=
    List.take_replicate _ _ _
  have hmin : min (n / 2) n ≠ 0 := by
    have : n / 2 ≤ n := Nat.div_le_self _ _
    omega
  have hmax : maxO ((List.replicate n (0 : ℚ)).take (n / 2)) = some 0 := by
    rw [htake]; exact maxO_replicate _ _ hmin
  have hvar : sampleVar (List.replicate n (0 : ℚ)) = 0 := sampleVar_replicate n 0
  have hlen : (List.replicate n (0 : ℚ)).length = n := List.length_replicate _ _
  simp only [classify_envelope_shape, hlen, hmax, hvar, Option.elim_some,
    slopeO_replicate_zero n hn]
  norm_num

/-! ## Claim 7: flat energy curve -/

/-- Counterexample to claim C7 as stated: on the valid single-frame flat
matrix `[[5]]` the frame-difference tensor is empty, `torch.mean` of it is
NaN and the reported stationarity/onset strength are NaN (`none`), not 0. -/
theorem claim7_counterexample :
    extract_temporal_dynamics [[(5 : ℚ)]] = none ∧
    extract_temporal_dynamics [[(5 : ℚ)]] ≠ some (0, 0) := by
  have h : extract_temporal_dynamics [[(5 : ℚ)]] = none := by
    simp [extract_temporal_dynamics, powerOverTime, diffQ, meanO, List.range_succ]
  exact ⟨h, by rw [h]; exact fun hc => Option.noConfusion hc⟩

/-- Claim C7 (amended): for every energy matrix with at least two frames
whose energy-over-time curve is perfectly flat, stationarity and onset
strength are (defined and) zero, and the envelope shape — computed from
the min-max-normalised dB curve for any choice of `log10` — is "steady".
The single-frame case is excluded: there the source reports NaN
(`claim7_counterexample`). -/
theorem claim7_flat_curve (M : List (List ℚ)) (n : ℕ) (c : ℚ) (l10 : ℚ → ℚ)
    (hpot : powerOverTime M = List.replicate n c) (_hc : 0 ≤ c) (hn : 2 ≤ n) :
    extract_temporal_dynamics M = some (0, 0) ∧
    classify_envelope_shape (energyNormalized
      (((powerOverTime M).map (· + eps)).map (fun p => 10 * l10 p))) = "steady" := by
  have hn0 : n ≠ 0 := by omega
  have hn1 : n - 1 ≠ 0 := by omega
  constructor
  · simp only [extract_temporal_dynamics, hpot, List.map_replicate, diffQ_replicate]
    rw [show |(0 : ℚ)| = 0 by norm_num, show max (0 : ℚ) 0 = 0 by norm_num]
    simp only [meanO, List.isEmpty_eq_true, List.replicate_eq_nil_iff, hn1, hn0,
      if_neg, not_false_iff]
    rw [meanQ_replicate _ _ hn1, meanQ_replicate _ _ hn0]
    simp [zero_div]
  · rw [hpot]
    simp only [List.map_replicate]
    rw [energyNormalized_replicate _ _ hn0]
    exact classify_envelope_shape_const n hn

/-- Witness for claim 7 on the flat 1 × 2 matrix `[[1, 1]]`. -/
theorem claim7_flat_curve_witness :
    powerOverTime [[(1 : ℚ), 1]] = List.replicate 2 1 ∧ (0 : ℚ) ≤ 1 ∧ 2 ≤ 2 ∧
    (extract_temporal_dynamics [[(1 : ℚ), 1]] = some (0, 0) ∧
    classify_envelope_shape (energyNormalized
      (((powerOverTime [[(1 : ℚ), 1]]).map (· + eps)).map (fun p => 10 * (fun _ : ℚ => (0 : ℚ)) p))) =
      "steady") := by
  have hp : powerOverTime [[(1 : ℚ), 1]] = List.replicate 2 1 := by
    norm_num [powerOverTime, meanQ, List.range_succ]
    rfl
  exact ⟨hp, by norm_num, by norm_num,
    claim7_flat_curve [[(1 : ℚ), 1]] 2 1 (fun _ => 0) hp (by norm_num) (by norm_num)⟩

/-! ## Claim 4: crescendo classification -/

/-- The left fold of `max` lands on its seed or an element of the list. -/
theorem foldl_max_mem (xs : List ℚ) : ∀ x : ℚ, xs.foldl max x = x ∨ xs.foldl max x ∈ xs := by
  induction xs with
  | nil => intro x; left; rfl
  | cons y ys ih =>
    intro x
    rcases ih (max x y) with h | h
    · rcases max_choice x y with hm | hm
      · left; rw [List.foldl_cons, h, hm]
      · right; rw [List.foldl_cons, h, hm]; exact List.mem_cons_self _ _
    · right; exact List.mem_cons_of_mem _ h

/-- The computed maximum is attained in the list. -/
theorem maxO_mem {l : List ℚ} {m : ℚ} (h : maxO l = some m) : m ∈ l := by
  cases l with
  | nil => exact absurd h (by simp [maxO])
  | cons x xs =>
    simp only [maxO, Option.some.injEq] at h
    rcases foldl_max_mem xs x with hx | hx
    · rw [← h, hx]; exact List.mem_cons_self _ _
    · rw [← h]; exact List.mem_cons_of_mem _ hx

/-- A lower bound on all elements bounds the mean from below. -/
theorem le_meanQ_of_forall_le (l : List ℚ) (a : ℚ) (hne : l ≠ [])
    (h : ∀ x ∈ l, a ≤ x) : a ≤ meanQ l := by
  have hlen : 0 < (l.length : ℚ) := by
    have : 0 < l.length := List.length_pos_of_ne_nil hne
    exact_mod_cast this
  have hsum : a * l.length ≤ l.sum := by
    clear hlen hne
    induction l with
    | nil => simp
    | cons x xs ih =>
      have hx : a ≤ x := h x (List.mem_cons_self _ _)
      have hxs := ih (fun y hy => h y (List.mem_cons_of_mem _ hy))
      simp only [List.length_cons, List.sum_cons]
      push_cast
      nlinarith
  rw [meanQ, le_div_iff₀ hlen]
  linarith

/-- Claim C4 (amended): a monotonically nondecreasing normalized curve of
at least three points whose regression slope exceeds 0.3 *and whose sample
variance is at most (0.25)²* classifies as "crescendo".  Without the
variance bound the claim is false: a monotone linear ramp exceeds the 0.25
standard-deviation gate and lands in the "erratic" branch
(`claim4_counterexample`). -/
theorem claim4_crescendo (e : List ℚ) (s : ℚ)
    (hsort : List.Sorted (· ≤ ·) e) (hn : 3 ≤ e.length)
    (hvar : sampleVar e ≤ 1 / 16) (hslope : slopeO e = some s) (hs : 3 / 10 < s) :
    classify_envelope_shape e = "crescendo" := by
  set n := e.length with hnlen
  -- the attack-decay gate is closed for monotone curves
  have hAD : (((meanO (e.take (n / 3))).elim false (fun m => decide (m < 1 / 2))) &&
      ((maxO (e.take (n / 2))).elim false (fun m => decide (7 / 10 < m))) &&
      ((meanO (e.drop (n * 2 / 3))).elim false (fun ml =>
        (meanO (e.take (n / 3))).elim false (fun mf => decide (ml < mf + 1 / 5))))) = false := by
    by_contra hbool
    rw [Bool.not_eq_false, Bool.and_eq_true, Bool.and_eq_true] at hbool
    obtain ⟨⟨h1, h2⟩, h3⟩ := hbool
    obtain ⟨mf, hfm, hmf⟩ : ∃ mf, meanO (e.take (n / 3)) = some mf ∧ mf < 1 / 2 := by
      cases hft : meanO (e.take (n / 3)) with
      | none => rw [hft] at h1; exact absurd h1 (by simp)
      | some v =>
        rw [hft] at h1
        exact ⟨v, rfl, of_decide_eq_true h1⟩
    obtain ⟨mx, hxm, hmx⟩ : ∃ mx, maxO (e.take (n / 2)) = some mx ∧ 7 / 10 < mx := by
      cases hfh : maxO (e.take (n / 2)) with
      | none => rw [hfh] at h2; exact absurd h2 (by simp)
      | some v =>
        rw [hfh] at h2
        exact ⟨v, rfl, of_decide_eq_true h2⟩
    obtain ⟨ml, hlm, hml⟩ : ∃ ml, meanO (e.drop (n * 2 / 3)) = some ml ∧ ml < mf + 1 / 5 := by
      cases hlt : meanO (e.drop (n * 2 / 3)) with
      | none => rw [hlt] at h3; exact absurd h3 (by simp)
      | some v =>
        rw [hlt, hfm] at h3
        exact ⟨v, rfl, of_decide_eq_true h3⟩
    -- the maximum of the first half sits below every point of the last third
    have hmem : mx ∈ e.take (n / 2) := maxO_mem hxm
    have hsub : e.take (n / 2) ⊆ e.take (n * 2 / 3) := by
      have hle : n / 2 ≤ n * 2 / 3 := by omega
      rw [show e.take (n / 2) = (e.take (n * 2 / 3)).take (n / 2) by
        rw [List.take_take, min_eq_left hle]]
      exact List.take_subset _ _
    have hbound : ∀ y ∈ e.drop (n * 2 / 3), mx ≤ y :=
      fun y hy => List.Pairwise.rel_of_mem_take_of_mem_drop hsort (hsub hmem) hy
    have hne : e.drop (n * 2 / 3) ≠ [] := by
      intro hnil
      rw [List.drop_eq_nil_iff] at hnil
      omega
    have hmean : mx ≤ ml := by
      have := le_meanQ_of_forall_le (e.drop (n * 2 / 3)) mx hne hbound
      have hml2 : meanO (e.drop (n * 2 / 3)) = some (meanQ (e.drop (n * 2 / 3))) := by
        simp [meanO, hne]
      rw [hml2] at hlm
      injection hlm with hlm
      rw [← hlm]
      exact this
    linarith
  have hvar2 : ¬ (1 / 16 < sampleVar e) := not_lt.mpr hvar
  have habs : ¬ |s| < 3 / 10 := not_lt.mpr (le_trans (le_of_lt hs) (le_abs_self s))
  simp only [classify_envelope_shape, ← hnlen, hAD, Bool.false_eq_true, if_false,
    hvar2, hslope, habs, hs, if_true]

/-- Counterexample to claim C4 as stated: a monotonically increasing
normalized curve with regression slope 1 (far above 0.3) that the source
classifies as "erratic", not "crescendo" — its sample standard deviation
exceeds the 0.25 gate, so the high-variation branch fires first and counts
zero sign alternations. -/
theorem claim4_counterexample :
    List.Sorted (· ≤ ·) rampCurve ∧ slopeO rampCurve = some 1 ∧
    classify_envelope_shape rampCurve = "erratic" := by
  refine ⟨?_, ?_, ?_⟩
  · norm_num [rampCurve, List.sorted_cons]
  · norm_num [rampCurve, slopeO, linspace, meanQ, List.range_succ]
  · norm_num [rampCurve, classify_envelope_shape, sampleVar, meanQ, meanO, maxO,
      signChanges, diffQ, signQ, slopeO, linspace, List.range_succ]

/-- Witness for claim 4 at the concrete monotone curve `stepCurve`
(slope 27/55 > 0.3, sample variance 1/18 ≤ 1/16). -/
theorem claim4_crescendo_witness :
    List.Sorted (· ≤ ·) stepCurve ∧ 3 ≤ stepCurve.length ∧
    sampleVar stepCurve ≤ 1 / 16 ∧ slopeO stepCurve = some (27 / 55) ∧
    (3 : ℚ) / 10 < 27 / 55 ∧ classify_envelope_shape stepCurve = "crescendo" := by
  have h1 : List.Sorted (· ≤ ·) stepCurve := by
    norm_num [stepCurve, List.sorted_cons]
  have h2 : 3 ≤ stepCurve.length := by norm_num [stepCurve]
  have h3 : sampleVar stepCurve ≤ 1 / 16 := by
    norm_num [stepCurve, sampleVar, meanQ]
  have h4 : slopeO stepCurve = some (27 / 55) := by
    norm_num [stepCurve, slopeO, linspace, meanQ, List.range_succ]
  have h5 : (3 : ℚ) / 10 < 27 / 55 := by norm_num
  exact ⟨h1, h2, h3, h4, h5, claim4_crescendo stepCurve (27 / 55) h1 h2 h3 h4 h5⟩

/-! ## Claim 8: degenerate spectral spread -/

/-- Claim C8: whenever the spectral spread is below epsilon, the reported
skewness and kurtosis are exactly 0 (the standardising division is never
executed). -/
theorem claim8_degenerate_spread (M : List (List ℚ))
    (h : spreadR M < ((eps : ℚ) : ℝ)) :
    skewnessR M = 0 ∧ kurtosisR M = 0 := by
  have hnot : ¬ (((eps : ℚ) : ℝ) < spreadR M) := not_lt.mpr (le_of_lt h)
  exact ⟨by rw [skewnessR, if_neg hnot], by rw [kurtosisR, if_neg hnot]⟩

/-- The probability profile of the single-bin matrix `[[1]]` collapses to
`[1]`. -/
theorem probR_single : probR [[(1 : ℚ)]] = [1] := by
  have hppb : powerPerBinR [[(1 : ℚ)]] = [1 + ((eps : ℚ) : ℝ)] := by
    norm_num [powerPerBinR]
  have hpos : (0 : ℝ) < 1 + ((eps : ℚ) : ℝ) := by
    norm_num [eps]
  simp only [probR, hppb, List.sum_cons, List.sum_nil, add_zero]
  rw [if_pos hpos]
  simp only [List.map_cons, List.map_nil]
  rw [div_self (ne_of_gt hpos)]

/-- The spread of a single-bin matrix is zero. -/
theorem spreadR_single : spreadR [[(1 : ℚ)]] = 0 := by
  have hc : centroidR [[(1 : ℚ)]] = 0 := by
    have hlen : (powerPerBinR [[(1 : ℚ)]]).length = 1 := by
      simp [powerPerBinR]
    rw [centroidR, hlen, probR_single]
    simp [List.range_succ]
  have hlen : (powerPerBinR [[(1 : ℚ)]]).length = 1 := by
    simp [powerPerBinR]
  rw [spreadR, hlen, probR_single, hc]
  simp [List.range_succ]

/-- Witness for claim 8 on the 1 × 1 matrix `[[1]]` (spread 0 < eps). -/
theorem claim8_degenerate_spread_witness :
    spreadR [[(1 : ℚ)]] < ((eps : ℚ) : ℝ) ∧
    skewnessR [[(1 : ℚ)]] = 0 ∧ kurtosisR [[(1 : ℚ)]] = 0 := by
  have h : spreadR [[(1 : ℚ)]] < ((eps : ℚ) : ℝ) := by
    rw [spreadR_single]
    norm_num [eps]
  exact ⟨h, claim8_degenerate_spread [[(1 : ℚ)]] h⟩

/-! ## Structure of the changepoint list (claims 1 and 2) -/

/-- Banker's rounding is the identity on integers. -/
theorem bankersRound_intCast (k : ℤ) : bankersRound (k : ℚ) = k := by
  unfold bankersRound
  rw [Int.floor_intCast]
  norm_num

/-- Rounding to two decimals is exact on multiples of a hundredth. -/
theorem round2_mul_centi (k : ℕ) : round2 ((k : ℚ) * (1 / 100)) = (k : ℚ) / 100 := by
  unfold round2
  rw [show (k : ℚ) * (1 / 100) * 100 = ((k : ℤ) : ℚ) by push_cast; ring,
    bankersRound_intCast]
  push_cast
  ring

/-- Length of the forward-difference tensor. -/
theorem diffQ_length (l : List ℚ) : (diffQ l).length = l.length - 1 := by
  unfold diffQ
  rw [List.length_zipWith, List.length_tail]
  omega

/-- The moving average keeps the tensor length (stride 1, padding 2,
kernel 5). -/
theorem avgPool5_length (l : List ℚ) : (avgPool5 l).length = l.length := by
  simp only [avgPool5, List.length_map, List.length_range]

/-- The minimum-gap scan only keeps candidates. -/
theorem gapFilter_subset (g : ℕ) : ∀ (l : List ℕ) (last : ℕ), gapFilter g last l ⊆ l := by
  intro l
  induction l with
  | nil => intro last; simp [gapFilter]
  | cons x rest ih =>
    intro last
    rw [gapFilter]
    split
    · exact List.cons_subset_cons x (ih x)
    · exact (ih last).trans (List.subset_cons_self _ _)

/-- The minimum-gap scan produces a chain whose links respect both the gap
and strict ascent. -/
theorem gapFilter_chain (g : ℕ) : ∀ (l : List ℕ) (last : ℕ), l.Pairwise (· < ·) →
    (∀ x ∈ l, last < x) →
    List.Chain (fun a b => a + g ≤ b ∧ a < b) last (gapFilter g last l) := by
  intro l
  induction l with
  | nil => intro last _ _; exact List.Chain.nil
  | cons x rest ih =>
    intro last hp hlt
    rw [gapFilter]
    obtain ⟨hhead, htail⟩ := List.pairwise_cons.mp hp
    split
    · rename_i hacc
      exact List.Chain.cons ⟨hacc, hlt x (List.mem_cons_self _ _)⟩
        (ih x htail (fun y hy => hhead y hy))
    · exact ih last htail
        (fun y hy => lt_trans (hlt x (List.mem_cons_self _ _)) (hhead y hy))

/-- `torch.unique` output is strictly increasing. -/
theorem sortDedup_pairwise (l : List ℕ) : (sortDedup l).Pairwise (· < ·) := by
  have hs := @List.sorted_mergeSort _ (fun a b : ℕ => decide (a ≤ b))
    (fun a b c hab hbc => by
      rw [decide_eq_true_eq] at hab hbc ⊢; omega)
    (fun a b => by rcases Nat.le_total a b with h | h <;> simp [h]) l
  have hle : (l.mergeSort (fun a b : ℕ => decide (a ≤ b))).Pairwise (· ≤ ·) :=
    hs.imp (fun h => of_decide_eq_true h)
  have hle2 : (sortDedup l).Pairwise (· ≤ ·) :=
    hle.sublist (List.dedup_sublist _)
  have hnd : (sortDedup l).Pairwise (· ≠ ·) := List.nodup_dedup _
  exact (hle2.and hnd).imp (fun h => lt_of_le_of_ne h.1 h.2)

/-- Membership in the `torch.unique` output. -/
theorem mem_sortDedup {x : ℕ} {l : List ℕ} : x ∈ sortDedup l ↔ x ∈ l := by
  unfold sortDedup
  rw [List.mem_dedup, List.mem_mergeSort]

/-- Candidate changepoints extracted from a slope-change curve lie in
`[1, len]`. -/
theorem changepoint_candidate_bound {lt : ℚ} {sc : List ℚ} {x : ℕ}
    (hx : x ∈ (sc.enum.filter (fun p => decide (lt < p.2))).map (fun p => p.1 + 1)) :
    1 ≤ x ∧ x ≤ sc.length := by
  rw [List.mem_map] at hx
  obtain ⟨p, hp, rfl⟩ := hx
  have hmem := List.mem_of_mem_filter hp
  rw [List.enum_eq_zip_range] at hmem
  have h1 := (List.of_mem_zip (by exact hmem)).1
  rw [List.mem_range] at h1
  omega

/-- Shape of a successful changepoint detection: for an `n`-frame clip
(`n ≥ 3`) the result is always `0 :: gf ++ [n-1]`, where the inner
changepoints `gf` ascend strictly from 0 with gaps of at least `min_gap`
and never exceed `n - 2`. -/
theorem detect_changepoints_ok (e c : List ℚ) (lt pt : ℚ) (g : ℕ) (n : ℕ)
    (he : e.length = n) (hc : c.length = n) (hn : 3 ≤ n) :
    ∃ gf : List ℕ,
      detect_changepoints e c lt pt g = .ok ((0 :: gf) ++ [n - 1]) ∧
      List.Chain (fun a b => a + g ≤ b ∧ a < b) 0 gf ∧
      (∀ x ∈ gf, 1 ≤ x ∧ x ≤ n - 2) := by
  have hed : (diffQ e).length = n - 1 := by rw [diffQ_length, he]
  have hcd : (diffQ c).length = n - 1 := by rw [diffQ_length, hc]
  have hnenil : diffQ e ≠ [] := by
    intro hnil
    rw [hnil] at hed
    simp at hed
    omega
  have hne : ¬ (diffQ e).isEmpty = true := by
    simpa [List.isEmpty_iff] using hnenil
  have hn1 : ¬ (diffQ e).length = 1 := by omega
  have hesclen : ((diffQ (avgPool5 (diffQ e))).map (fun v => |v|)).length = n - 2 := by
    rw [List.length_map, diffQ_length, avgPool5_length, hed]
    omega
  have hcsclen : ((diffQ (avgPool5 (diffQ c))).map (fun v => |v|)).length = n - 2 := by
    rw [List.length_map, diffQ_length, avgPool5_length, hcd]
    omega
  simp only [detect_changepoints]
  rw [if_neg hne, if_neg hn1]
  set all := sortDedup
    ((((diffQ (avgPool5 (diffQ e))).map (fun v => |v|)).enum.filter
        (fun p => decide (lt < p.2))).map (fun p => p.1 + 1) ++
      (((diffQ (avgPool5 (diffQ c))).map (fun v => |v|)).enum.filter
        (fun p => decide (pt < p.2))).map (fun p => p.1 + 1)) with hall
  have hbound : ∀ x ∈ all, 1 ≤ x ∧ x ≤ n - 2 := by
    intro x hx
    rw [hall, mem_sortDedup, List.mem_append] at hx
    rcases hx with hx | hx
    · have hb := changepoint_candidate_bound hx
      rw [hesclen] at hb
      exact hb
    · have hb := changepoint_candidate_bound hx
      rw [hcsclen] at hb
      exact hb
  refine ⟨gapFilter g 0 all, ?_, ?_, ?_⟩
  · have hlast : ¬ ((0 :: gapFilter g 0 all).getLast? = some (e.length - 1)) := by
      intro hsome
      have hmem : (e.length - 1) ∈ (0 :: gapFilter g 0 all) :=
        List.mem_of_mem_getLast? hsome
      rw [he] at hmem
      rcases List.mem_cons.mp hmem with h0 | hgf
      · omega
      · have := hbound _ (gapFilter_subset g all 0 hgf)
        omega
    rw [if_neg hlast, he]
  · exact gapFilter_chain g all 0 (sortDedup_pairwise _) (fun x hx => (hbound x hx).1)
  · exact fun x hx => hbound x (gapFilter_subset g all 0 hx)

/-- Start and end times of a segment record at frame duration 0.01 s. -/
theorem computeSegStats_times (en cen : List ℚ) (a b : ℕ) :
    (computeSegStats en cen a b (1 / 100)).start_time = (a : ℚ) / 100 ∧
    (computeSegStats en cen a b (1 / 100)).end_time = (b : ℚ) / 100 := by
  unfold computeSegStats
  exact ⟨round2_mul_centi a, round2_mul_centi b⟩

/-- Shape of the initial segment list built from the changepoints: the
segments are contiguous, strictly forward in time, bounded by the last
frame, and the first one (when any survives) starts at the first
changepoint.  Requires the changepoint-list shape `detect_changepoints`
guarantees: strict ascent, gaps (except the final one) of at least `g`,
and indices at most `n - 1`. -/
theorem mkSegments_spec (e c : List ℚ) (g : ℕ) (n : ℕ) (hn : 1 ≤ n) :
    ∀ cps : List ℕ, cps.Chain' (· < ·) → GapsOK g cps → (∀ x ∈ cps, x ≤ n - 1) →
    List.Chain' (fun s t => s.end_time = t.start_time) (mkSegments e c (1 / 100) g cps) ∧
    (∀ s ∈ mkSegments e c (1 / 100) g cps,
      s.start_time < s.end_time ∧ s.end_time ≤ ((n : ℚ) - 1) / 100) ∧
    (∀ s, (mkSegments e c (1 / 100) g cps).head? = some s →
      s.start_time = (cps.headD 0 : ℚ) / 100) := by
  intro cps
  induction cps with
  | nil =>
    intro _ _ _
    refine ⟨List.chain'_nil, ?_, ?_⟩ <;> simp [mkSegments]
  | cons x rest ih =>
    cases rest with
    | nil =>
      intro _ _ _
      refine ⟨List.chain'_nil, ?_, ?_⟩ <;> simp [mkSegments]
    | cons y rest2 =>
      intro hchain hgaps hbound
      have hxy : x < y := (List.chain'_cons.mp hchain).1
      have hchain2 : List.Chain' (· < ·) (y :: rest2) := (List.chain'_cons.mp hchain).2
      have hgaps2 : GapsOK g (y :: rest2) := hgaps.2
      have hbound2 : ∀ z ∈ y :: rest2, z ≤ n - 1 :=
        fun z hz => hbound z (List.mem_cons_of_mem _ hz)
      have hyb : y ≤ n - 1 := hbound2 y (List.mem_cons_self _ _)
      have hyQ : ((y : ℚ)) / 100 ≤ ((n : ℚ) - 1) / 100 := by
        have : (y : ℚ) ≤ (n : ℚ) - 1 := by
          have hy2 : (y : ℚ) ≤ ((n - 1 : ℕ) : ℚ) := by exact_mod_cast hyb
          have : ((n - 1 : ℕ) : ℚ) = (n : ℚ) - 1 := by
            push_cast [Nat.cast_sub hn]
            ring
          linarith
        linarith
      have hxyQ : ((x : ℚ)) / 100 < ((y : ℚ)) / 100 := by
        have : (x : ℚ) < (y : ℚ) := by exact_mod_cast hxy
        linarith
      obtain ⟨ihchain, ihQ, ihhead⟩ := ih hchain2 hgaps2 hbound2
      have hunfold : mkSegments e c (1 / 100) g (x :: y :: rest2) =
          (if y - x < g then mkSegments e c (1 / 100) g (y :: rest2)
           else computeSegStats ((e.drop x).take (y - x)) ((c.drop x).take (y - x)) x y (1 / 100) ::
             mkSegments e c (1 / 100) g (y :: rest2)) := by
        by_cases h : y - x < g
        · simp only [mkSegments, List.tail_cons, List.zip_cons_cons, List.filterMap_cons,
            if_pos h]
        · simp only [mkSegments, List.tail_cons, List.zip_cons_cons, List.filterMap_cons,
            if_neg h]
      by_cases hkeep : y - x < g
      · -- the pair is dropped; `GapsOK` forces this to be the final pair
        have hrest2 : rest2 = [] := by
          by_contra hne
          have := hgaps.1 hne
          omega
        subst hrest2
        rw [hunfold, if_pos hkeep]
        refine ⟨?_, ?_, ?_⟩ <;> simp [mkSegments]
      · rw [hunfold, if_neg hkeep]
        set seg := computeSegStats ((e.drop x).take (y - x)) ((c.drop x).take (y - x)) x y (1 / 100) with hseg
        obtain ⟨hsegs, hsege⟩ := computeSegStats_times ((e.drop x).take (y - x)) ((c.drop x).take (y - x)) x y
        refine ⟨?_, ?_, ?_⟩
        · rw [List.chain'_cons']
          refine ⟨?_, ihchain⟩
          intro s hs
          rw [Option.mem_def] at hs
          rw [← hseg] at hsege
          rw [hsege, ihhead s hs]
          simp
        · intro s hs
          rcases List.mem_cons.mp hs with rfl | hs2
          · rw [← hseg] at hsegs hsege
            rw [hsegs, hsege]
            exact ⟨hxyQ, hyQ⟩
          · exact ihQ s hs2
        · intro s hs
          rw [List.head?_cons, Option.some.injEq] at hs
          rw [← hs, ← hseg] at *
          rw [hsegs]
          simp

/-- The fusion scan's accumulator is a passive prefix of the output. -/
theorem fuseGo_append (lt pt : ℚ) : ∀ (rest : List Segment) (prev : Segment)
    (acc : List Segment),
    fuseGo lt pt prev acc rest = acc ++ fuseGo lt pt prev [] rest := by
  intro rest
  induction rest with
  | nil => intro prev acc; simp [fuseGo]
  | cons seg rest2 ih =>
    intro prev acc
    rw [fuseGo, fuseGo]
    split
    · rw [ih (fuseInto prev seg) acc]
    · rw [ih seg (acc ++ [prev]), ih seg ([] ++ [prev])]
      simp

/-- Invariant preservation through the fusion scan: contiguity, forward
segments bounded by `B`, nonemptiness, and the head's start time. -/
theorem fuseGo_spec (lt pt B : ℚ) : ∀ (rest : List Segment) (prev : Segment),
    List.Chain' (fun s t => s.end_time = t.start_time) (prev :: rest) →
    (∀ s ∈ prev :: rest, s.start_time < s.end_time ∧ s.end_time ≤ B) →
    List.Chain' (fun s t => s.end_time = t.start_time) (fuseGo lt pt prev [] rest) ∧
    (∀ s ∈ fuseGo lt pt prev [] rest, s.start_time < s.end_time ∧ s.end_time ≤ B) ∧
    fuseGo lt pt prev [] rest ≠ [] ∧
    (∀ s, (fuseGo lt pt prev [] rest).head? = some s →
      s.start_time = prev.start_time) := by
  intro rest
  induction rest with
  | nil =>
    intro prev hchain hQ
    refine ⟨by simp [fuseGo], ?_, by simp [fuseGo], ?_⟩
    · intro s hs
      simp only [fuseGo, List.nil_append, List.mem_singleton] at hs
      subst hs
      exact hQ s (List.mem_cons_self _ _)
    · intro s hs
      simp only [fuseGo, List.nil_append, List.head?_cons, Option.some.injEq] at hs
      rw [← hs]
  | cons seg rest2 ih =>
    intro prev hchain hQ
    have hlink : prev.end_time = seg.start_time := (List.chain'_cons.mp hchain).1
    have hchain2 : List.Chain' (fun s t => s.end_time = t.start_time) (seg :: rest2) :=
      (List.chain'_cons.mp hchain).2
    rw [fuseGo]
    split
    · have hchain3 : List.Chain' (fun s t => s.end_time = t.start_time)
          (fuseInto prev seg :: rest2) := by
        rw [List.chain'_cons']
        refine ⟨?_, (List.chain'_cons'.mp hchain2).2⟩
        intro y hy
        have hlink2 := (List.chain'_cons'.mp hchain2).1 y hy
        show seg.end_time = y.start_time
        exact hlink2
      have hQ3 : ∀ s ∈ fuseInto prev seg :: rest2,
          s.start_time < s.end_time ∧ s.end_time ≤ B := by
        intro s hs
        rcases List.mem_cons.mp hs with rfl | hs2
        · have hQp := hQ prev (List.mem_cons_self _ _)
          have hQs := hQ seg (List.mem_cons_of_mem _ (List.mem_cons_self _ _))
          refine ⟨?_, ?_⟩
          · show prev.start_time < seg.end_time
            calc prev.start_time < prev.end_time := hQp.1
              _ = seg.start_time := hlink
              _ < seg.end_time := hQs.1
          · exact hQs.2
        · exact hQ s (List.mem_cons_of_mem _ (List.mem_cons_of_mem _ hs2))
      obtain ⟨c1, c2, c3, c4⟩ := ih (fuseInto prev seg) hchain3 hQ3
      exact ⟨c1, c2, c3, fun s hs => c4 s hs⟩
    · obtain ⟨c1, c2, c3, c4⟩ := ih seg hchain2
        (fun s hs => hQ s (List.mem_cons_of_mem _ hs))
      rw [fuseGo_append lt pt rest2 seg ([] ++ [prev])]
      simp only [List.nil_append, List.singleton_append]
      refine ⟨?_, ?_, ?_, ?_⟩
      · rw [List.chain'_cons']
        refine ⟨?_, c1⟩
        intro y hy
        rw [c4 y (Option.mem_def.mp hy)]
        exact hlink
      · intro s hs
        rcases List.mem_cons.mp hs with rfl | hs2
        · exact hQ s (List.mem_cons_self _ _)
        · exact c2 s hs2
      · simp
      · intro s hs
        rw [List.head?_cons, Option.some.injEq] at hs
        rw [← hs]

/-- Invariant preservation through `_fuse_similar_segments`. -/
theorem fuse_similar_segments_spec (lt pt B : ℚ) (segs : List Segment)
    (hchain : List.Chain' (fun s t => s.end_time = t.start_time) segs)
    (hQ : ∀ s ∈ segs, s.start_time < s.end_time ∧ s.end_time ≤ B) :
    List.Chain' (fun s t => s.end_time = t.start_time) (fuse_similar_segments lt pt segs) ∧
    (∀ s ∈ fuse_similar_segments lt pt segs,
      s.start_time < s.end_time ∧ s.end_time ≤ B) ∧
    (segs ≠ [] → fuse_similar_segments lt pt segs ≠ []) ∧
    (∀ s s0, (fuse_similar_segments lt pt segs).head? = some s →
      segs.head? = some s0 → s.start_time = s0.start_time) := by
  cases segs with
  | nil =>
    refine ⟨by simp [fuse_similar_segments], by simp [fuse_similar_segments], ?_, ?_⟩
    · intro h; exact absurd rfl h
    · intro s s0 h
      simp [fuse_similar_segments] at h
  | cons s rest =>
    obtain ⟨c1, c2, c3, c4⟩ := fuseGo_spec lt pt B rest s hchain hQ
    refine ⟨c1, c2, fun _ => c3, ?_⟩
    intro x x0 hx hx0
    rw [List.head?_cons, Option.some.injEq] at hx0
    rw [c4 x hx, ← hx0]

/-- Length of a single adjacent merge. -/
theorem mergeAt_length : ∀ (i : ℕ) (l : List Segment), i + 1 < l.length →
    (mergeAt i l).length = l.length - 1 := by
  intro i
  induction i with
  | zero =>
    intro l h
    cases l with
    | nil => simp at h
    | cons s1 t =>
      cases t with
      | nil => simp at h
      | cons s2 t2 => simp [mergeAt]
  | succ k ih =>
    intro l h
    cases l with
    | nil => simp at h
    | cons s t =>
      have h2 : k + 1 < t.length := by
        simp only [List.length_cons] at h
        omega
      simp only [mergeAt, List.length_cons, ih t h2]
      omega

/-- Invariant preservation through a single adjacent merge. -/
theorem mergeAt_spec (B : ℚ) : ∀ (i : ℕ) (l : List Segment),
    List.Chain' (fun s t => s.end_time = t.start_time) l →
    (∀ s ∈ l, s.start_time < s.end_time ∧ s.end_time ≤ B) →
    i + 1 < l.length →
    List.Chain' (fun s t => s.end_time = t.start_time) (mergeAt i l) ∧
    (∀ s ∈ mergeAt i l, s.start_time < s.end_time ∧ s.end_time ≤ B) ∧
    (∀ s, (mergeAt i l).head? = some s →
      ∃ s0, l.head? = some s0 ∧ s.start_time = s0.start_time) := by
  intro i
  induction i with
  | zero =>
    intro l hchain hQ hlen
    cases l with
    | nil => simp at hlen
    | cons s1 t =>
      cases t with
      | nil => simp at hlen
      | cons s2 t2 =>
        have hlink : s1.end_time = s2.start_time := (List.chain'_cons.mp hchain).1
        have hchain2 := (List.chain'_cons.mp hchain).2
        refine ⟨?_, ?_, ?_⟩
        · show List.Chain' _ (mergedPair s1 s2 :: t2)
          rw [List.chain'_cons']
          refine ⟨?_, (List.chain'_cons'.mp hchain2).2⟩
          intro y hy
          have := (List.chain'_cons'.mp hchain2).1 y hy
          show s2.end_time = y.start_time
          exact this
        · intro s hs
          rcases List.mem_cons.mp hs with rfl | hs2
          · have hQ1 := hQ s1 (List.mem_cons_self _ _)
            have hQ2 := hQ s2 (List.mem_cons_of_mem _ (List.mem_cons_self _ _))
            refine ⟨?_, ?_⟩
            · show s1.start_time < s2.end_time
              calc s1.start_time < s1.end_time := hQ1.1
                _ = s2.start_time := hlink
                _ < s2.end_time := hQ2.1
            · exact hQ2.2
          · exact hQ s (List.mem_cons_of_mem _ (List.mem_cons_of_mem _ hs2))
        · intro s hs
          simp only [mergeAt, List.head?_cons, Option.some.injEq] at hs
          exact ⟨s1, rfl, by rw [← hs]; rfl⟩
  | succ k ih =>
    intro l hchain hQ hlen
    cases l with
    | nil => simp at hlen
    | cons s t =>
      have h2 : k + 1 < t.length := by
        simp only [List.length_cons] at hlen
        omega
      obtain ⟨c1, c2, c3⟩ := ih t (List.chain'_cons'.mp hchain).2
        (fun x hx => hQ x (List.mem_cons_of_mem _ hx)) h2
      refine ⟨?_, ?_, ?_⟩
      · show List.Chain' _ (s :: mergeAt k t)
        rw [List.chain'_cons']
        refine ⟨?_, c1⟩
        intro y hy
        obtain ⟨y0, hy0, hystart⟩ := c3 y (Option.mem_def.mp hy)
        rw [hystart]
        exact (List.chain'_cons'.mp hchain).1 y0 (Option.mem_def.mpr hy0)
      · intro x hx
        rcases List.mem_cons.mp hx with rfl | hx2
        · exact hQ x (List.mem_cons_self _ _)
        · exact c2 x hx2
      · intro x hx
        show ∃ s0, (s :: t).head? = some s0 ∧ x.start_time = s0.start_time
        simp only [mergeAt, List.head?_cons, Option.some.injEq] at hx
        exact ⟨s, rfl, by rw [← hx]⟩

/-- The source's list splice agrees with the structural `mergeAt` for
in-range indices. -/
theorem mergeOnce_eq_mergeAt : ∀ (i : ℕ) (l : List Segment), i + 1 < l.length →
    l.take i ++ [mergedPair (l.getD i default) (l.getD (i + 1) default)] ++
      l.drop (i + 2) = mergeAt i l := by
  intro i
  induction i with
  | zero =>
    intro l h
    cases l with
    | nil => simp at h
    | cons s1 t =>
      cases t with
      | nil => simp at h
      | cons s2 t2 => simp [mergeAt]
  | succ k ih =>
    intro l h
    cases l with
    | nil => simp at h
    | cons s t =>
      have h2 : k + 1 < t.length := by
        simp only [List.length_cons] at h
        omega
      simp only [List.take_succ_cons, List.getD_cons_succ, mergeAt]
      rw [← ih t h2]
      simp [List.drop_succ_cons]

/-- Upper bound on the first-strict-minimum scan. -/
theorem findMinIdxAux_le : ∀ (rest : List ℚ) (i best : ℕ) (bv : ℚ),
    findMinIdxAux i best bv rest ≤ max best (i + rest.length - 1) := by
  intro rest
  induction rest with
  | nil => intro i best bv; simp [findMinIdxAux]
  | cons x r2 ih =>
    intro i best bv
    rw [findMinIdxAux]
    split
    · have h := ih (i + 1) i x
      simp only [List.length_cons]
      omega
    · have h := ih (i + 1) best bv
      simp only [List.length_cons]
      omega

/-- The merge index always addresses an adjacent pair when at least two
segments exist. -/
theorem findMergeIdx_lt (segs : List Segment) (h : 2 ≤ segs.length) :
    findMergeIdx segs + 1 < segs.length := by
  unfold findMergeIdx
  have hlen : ((segs.zip segs.tail).map
      (fun p => |p.1.loudness.mean_db - p.2.loudness.mean_db|)).length =
      segs.length - 1 := by
    rw [List.length_map, List.length_zip, List.length_tail]
    omega
  split
  · rename_i heq
    rw [heq] at hlen
    simp at hlen
    omega
  · rename_i d rest heq
    rw [heq] at hlen
    simp only [List.length_cons] at hlen
    have hb := findMinIdxAux_le rest 1 0 d
    omega

/-- Invariant preservation through the fuelled merge loop. -/
theorem mergeLoop_spec (B : ℚ) (maxS : ℕ) (hmax : 1 ≤ maxS) :
    ∀ (fuel : ℕ) (l : List Segment),
    List.Chain' (fun s t => s.end_time = t.start_time) l →
    (∀ s ∈ l, s.start_time < s.end_time ∧ s.end_time ≤ B) →
    List.Chain' (fun s t => s.end_time = t.start_time) (mergeLoop maxS fuel l) ∧
    (∀ s ∈ mergeLoop maxS fuel l, s.start_time < s.end_time ∧ s.end_time ≤ B) ∧
    (l ≠ [] → mergeLoop maxS fuel l ≠ []) ∧
    (∀ s s0, (mergeLoop maxS fuel l).head? = some s → l.head? = some s0 →
      s.start_time = s0.start_time) := by
  intro fuel
  induction fuel with
  | zero =>
    intro l hchain hQ
    refine ⟨hchain, hQ, fun h => h, ?_⟩
    intro s s0 hs hs0
    rw [mergeLoop] at hs
    rw [hs] at hs0
    injection hs0 with h
    rw [h]
  | succ f ih =>
    intro l hchain hQ
    rw [mergeLoop]
    split
    · refine ⟨hchain, hQ, fun h => h, ?_⟩
      intro s s0 hs hs0
      rw [hs] at hs0
      injection hs0 with h
      rw [h]
    · rename_i hgt
      push_neg at hgt
      have hlen2 : 2 ≤ l.length := by omega
      have hidx := findMergeIdx_lt l hlen2
      have hmerge : mergeOnce l = mergeAt (findMergeIdx l) l := by
        unfold mergeOnce
        exact mergeOnce_eq_mergeAt _ l hidx
      rw [hmerge]
      obtain ⟨m1, m2, m3⟩ := mergeAt_spec B (findMergeIdx l) l hchain hQ hidx
      obtain ⟨c1, c2, c3, c4⟩ := ih (mergeAt (findMergeIdx l) l) m1 m2
      have hm_ne : mergeAt (findMergeIdx l) l ≠ [] := by
        intro hnil
        have hl := mergeAt_length (findMergeIdx l) l hidx
        rw [hnil] at hl
        simp at hl
        omega
      refine ⟨c1, c2, fun _ => c3 hm_ne, ?_⟩
      intro s s0 hs hs0
      obtain ⟨m, hm⟩ : ∃ m, (mergeAt (findMergeIdx l) l).head? = some m := by
        cases hM : (mergeAt (findMergeIdx l) l) with
        | nil => exact absurd hM hm_ne
        | cons a t => exact ⟨a, rfl⟩
      obtain ⟨s0q, hs0q, hstart⟩ := m3 m hm
      rw [hs0q] at hs0
      injection hs0 with h
      rw [c4 s m hs hm, hstart, h]

/-- The fuelled merge loop reaches the cap whenever the fuel covers the
excess length. -/
theorem mergeLoop_length (maxS : ℕ) (hmax : 1 ≤ maxS) :
    ∀ (fuel : ℕ) (l : List Segment), l.length ≤ fuel + maxS →
    (mergeLoop maxS fuel l).length ≤ maxS := by
  intro fuel
  induction fuel with
  | zero =>
    intro l h
    rw [mergeLoop]
    omega
  | succ f ih =>
    intro l h
    rw [mergeLoop]
    split
    · assumption
    · rename_i hgt
      push_neg at hgt
      have hlen2 : 2 ≤ l.length := by omega
      have hidx := findMergeIdx_lt l hlen2
      have hmerge : mergeOnce l = mergeAt (findMergeIdx l) l := by
        unfold mergeOnce
        exact mergeOnce_eq_mergeAt _ l hidx
      rw [hmerge]
      apply ih
      rw [mergeAt_length _ _ hidx]
      omega

/-- Short clips (at most two frames) make the changepoint detector raise. -/
theorem detect_changepoints_err (e c : List ℚ) (lt pt : ℚ) (g : ℕ)
    (h : e.length ≤ 2) :
    ∃ msg, detect_changepoints e c lt pt g = .error msg := by
  unfold detect_changepoints
  by_cases h1 : (diffQ e).isEmpty
  · exact ⟨_, by rw [if_pos h1]⟩
  · have hne : diffQ e ≠ [] := by
      simpa [List.isEmpty_iff] using h1
    have hlen : (diffQ e).length = 1 := by
      have hl := diffQ_length e
      have h0 : (diffQ e).length ≠ 0 := by
        simpa [List.length_eq_zero] using hne
      omega
    exact ⟨_, by rw [if_neg h1, if_pos hlen]⟩

/-- The changepoint shape implies the gaps-except-last property. -/
theorem gapsOK_of_chain (g : ℕ) : ∀ (gf : List ℕ) (a last : ℕ),
    List.Chain (fun x y => x + g ≤ y ∧ x < y) a gf →
    GapsOK g ((a :: gf) ++ [last]) := by
  intro gf
  induction gf with
  | nil => intro a last _; exact ⟨fun h => absurd rfl h, trivial⟩
  | cons x gf2 ih =>
    intro a last hchain
    rcases hchain with _ | ⟨hax, hrest⟩
    exact ⟨fun _ => hax.1, ih x last hrest⟩

/-- Contiguous forward segments are strictly ordered by start time. -/
theorem chain_lt_of_contig (l : List Segment)
    (hchain : List.Chain' (fun s t => s.end_time = t.start_time) l)
    (hQ : ∀ s ∈ l, s.start_time < s.end_time) :
    List.Chain' (fun s t => s.start_time < t.start_time) l := by
  induction l with
  | nil => simp
  | cons a t ih =>
    rw [List.chain'_cons'] at hchain ⊢
    refine ⟨?_, ih hchain.2 (fun s hs => hQ s (List.mem_cons_of_mem _ hs))⟩
    intro y hy
    have hlink := hchain.1 y hy
    rw [← hlink]
    exact hQ a (List.mem_cons_self _ _)

/-- The default 0.5 s minimum segment duration is 50 frames at 0.01 s per
frame. -/
theorem minSegmentFrames_default : minSegmentFrames (1 / 100) (1 / 2) = 50 := by
  unfold minSegmentFrames
  have hfl : ⌊(1 / 2 : ℚ) / (1 / 100)⌋ = 50 := by norm_num
  rw [hfl]
  rfl

/-- Indexing an all-zero tensor with a zero default always yields zero. -/
theorem getD_replicate_zero (m j : ℕ) : (List.replicate m (0 : ℚ)).getD j 0 = 0 := by
  rw [List.getD_eq_getElem?_getD, List.getElem?_replicate]
  split <;> rfl

/-- The moving average of an all-zero tensor is all-zero. -/
theorem avgPool5_zero (m : ℕ) : avgPool5 (List.replicate m (0 : ℚ)) = List.replicate m 0 := by
  unfold avgPool5
  rw [List.length_replicate, List.eq_replicate_iff]
  refine ⟨by rw [List.length_map, List.length_range], ?_⟩
  intro b hb
  rw [List.mem_map] at hb
  obtain ⟨i, _, rfl⟩ := hb
  have hz : ((List.range 5).map (fun (k : ℕ) =>
      let j : ℤ := (i : ℤ) + (k : ℤ) - 2
      if 0 ≤ j ∧ j < (m : ℤ) then
        (List.replicate m (0 : ℚ)).getD j.toNat 0 else 0)) = List.replicate 5 0 := by
    rw [List.eq_replicate_iff]
    refine ⟨by rw [List.length_map, List.length_range], ?_⟩
    intro x hx
    rw [List.mem_map] at hx
    obtain ⟨k, _, rfl⟩ := hx
    simp only [getD_replicate_zero]
    split <;> rfl
  rw [hz]
  simp

/-- No changepoint candidates arise from an all-zero slope-change curve. -/
theorem candidates_zero (t : ℚ) (ht : 0 ≤ t) (m : ℕ) :
    (((List.replicate m (0 : ℚ)).enum.filter (fun p => decide (t < p.2))).map
      (fun p => p.1 + 1)) = [] := by
  rw [List.map_eq_nil_iff, List.filter_eq_nil_iff]
  intro p hp
  have hsnd : p.2 ∈ List.replicate m (0 : ℚ) := by
    rw [List.enum_eq_zip_range] at hp
    exact (List.of_mem_zip (by exact hp)).2
  rw [List.eq_of_mem_replicate hsnd]
  simp
  linarith

/-- Changepoints of a constant clip: only the forced frame 0 and the last
frame remain. -/
theorem detect_changepoints_const (n : ℕ) (hn : 3 ≤ n) (v w : ℚ) :
    detect_changepoints (List.replicate n v) (List.replicate n w) 2 2 50 =
      .ok [0, n - 1] := by
  unfold detect_changepoints
  rw [diffQ_replicate, diffQ_replicate]
  have hne : ¬ (List.replicate (n - 1) (0 : ℚ)).isEmpty = true := by
    simp [List.isEmpty_iff, List.replicate_eq_nil_iff]
    omega
  rw [if_neg hne]
  have hn1 : ¬ (List.replicate (n - 1) (0 : ℚ)).length = 1 := by
    rw [List.length_replicate]
    omega
  rw [if_neg hn1, avgPool5_zero, diffQ_replicate, List.length_replicate]
  have habs : (List.replicate (n - 1 - 1) (0 : ℚ)).map (fun v => |v|) =
      List.replicate (n - 1 - 1) 0 := by
    rw [List.map_replicate, abs_zero]
  rw [habs]
  simp only [candidates_zero 2 (by norm_num), List.append_nil]
  have hsd : sortDedup [] = [] := by
    unfold sortDedup
    rw [List.mergeSort_nil]
    rfl
  rw [hsd]
  have hgf : gapFilter 50 0 [] = [] := rfl
  rw [hgf]
  have hlast : ¬ (([0] : List ℕ).getLast? = some (n - 1)) := by
    simp
    omega
  rw [if_neg hlast]
  rfl

/-- A constant 10-frame clip (0.1 s at the 0.01 s frame duration) yields
no segments: the only interval is shorter than the 50-frame minimum. -/
theorem extract_segments_const_10 :
    extract_temporal_segments (List.replicate 10 (-80 : ℚ))
      (List.replicate 10 (63 / 2 : ℚ)) (1 / 100) (1 / 2) 8 2 2 = .ok [] := by
  unfold extract_temporal_segments
  simp only [minSegmentFrames_default]
  rw [detect_changepoints_const 10 (by norm_num)]
  have hmk : mkSegments (List.replicate 10 (-80 : ℚ))
      (List.replicate 10 (63 / 2 : ℚ)) (1 / 100) 50 [0, 10 - 1] = [] := by
    simp [mkSegments]
  simp only [Bind.bind, Except.bind, hmk]
  rfl

/-- A constant 52-frame clip yields exactly one segment, built from the
changepoint pair `(0, 51)`. -/
theorem extract_segments_const_52_full :
    extract_temporal_segments (List.replicate 52 (-80 : ℚ))
      (List.replicate 52 (63 / 2 : ℚ)) (1 / 100) (1 / 2) 8 2 2 =
    .ok [computeSegStats (((List.replicate 52 (-80 : ℚ)).drop 0).take (52 - 1 - 0))
      (((List.replicate 52 (63 / 2 : ℚ)).drop 0).take (52 - 1 - 0)) 0 (52 - 1) (1 / 100)] := by
  unfold extract_temporal_segments
  simp only [minSegmentFrames_default]
  rw [detect_changepoints_const 52 (by norm_num)]
  have hmk : mkSegments (List.replicate 52 (-80 : ℚ))
      (List.replicate 52 (63 / 2 : ℚ)) (1 / 100) 50 [0, 52 - 1] =
      [computeSegStats (((List.replicate 52 (-80 : ℚ)).drop 0).take (52 - 1 - 0))
        (((List.replicate 52 (63 / 2 : ℚ)).drop 0).take (52 - 1 - 0)) 0 (52 - 1) (1 / 100)] := by
    simp [mkSegments]
  simp only [Bind.bind, Except.bind, hmk]
  have hfuse : fuse_similar_segments 2 2
      [computeSegStats (((List.replicate 52 (-80 : ℚ)).drop 0).take (52 - 1 - 0))
        (((List.replicate 52 (63 / 2 : ℚ)).drop 0).take (52 - 1 - 0)) 0 (52 - 1) (1 / 100)] =
      [computeSegStats (((List.replicate 52 (-80 : ℚ)).drop 0).take (52 - 1 - 0))
        (((List.replicate 52 (63 / 2 : ℚ)).drop 0).take (52 - 1 - 0)) 0 (52 - 1) (1 / 100)] := rfl
  rw [hfuse]
  rw [if_neg (by norm_num)]

/-- A strictly ascending chain stays strictly ascending when a strictly
larger element is appended. -/
theorem chain'_append_last (last : ℕ) : ∀ (gf : List ℕ) (a : ℕ),
    List.Chain (· < ·) a gf →
    (∀ x ∈ a :: gf, x < last) →
    List.Chain' (· < ·) (a :: (gf ++ [last])) := by
  intro gf
  induction gf with
  | nil =>
    intro a _ hlt
    simp only [List.nil_append]
    exact List.chain'_cons.mpr ⟨hlt a (List.mem_cons_self _ _), List.chain'_singleton _⟩
  | cons x gf2 ih =>
    intro a hchain hlt
    rcases hchain with _ | ⟨hax, hrest⟩
    simp only [List.cons_append]
    exact List.chain'_cons.mpr
      ⟨hax, ih x hrest (fun y hy => hlt y (List.mem_cons_of_mem _ hy))⟩

/-- The first changepoint interval survives the minimum-length filter as
soon as it spans at least `g` frames, so the segment list is nonempty. -/
theorem mkSegments_ne_nil (e c : List ℚ) (g x y : ℕ) (rest : List ℕ)
    (hge : x + g ≤ y) :
    mkSegments e c (1 / 100) g (x :: y :: rest) ≠ [] := by
  unfold mkSegments
  simp only [List.tail_cons, List.zip_cons_cons, List.filterMap_cons]
  rw [if_neg (by omega : ¬ y - x < g)]
  simp

/-- Everything a successful run of the segmentation pipeline guarantees:
the clip has at least three frames, the segments are contiguous, each runs
strictly forward in time and ends no later than frame `n - 1` (0.01 s per
frame), the first starts at time 0, the count respects the cap, and a clip
of at least 51 frames yields at least one segment. -/
theorem extract_segments_ok_spec (e c : List ℚ) (lt pt : ℚ) (maxSegs n : ℕ)
    (hmax : 1 ≤ maxSegs) (he : e.length = n) (hc : c.length = n)
    (segs : List Segment)
    (hok : extract_temporal_segments e c (1 / 100) (1 / 2) maxSegs lt pt = .ok segs) :
    3 ≤ n ∧
    List.Chain' (fun s t => s.end_time = t.start_time) segs ∧
    (∀ s ∈ segs, s.start_time < s.end_time ∧ s.end_time ≤ ((n : ℚ) - 1) / 100) ∧
    (∀ s, segs.head? = some s → s.start_time = 0) ∧
    segs.length ≤ maxSegs ∧
    (51 ≤ n → segs ≠ []) := by
  unfold extract_temporal_segments at hok
  simp only [minSegmentFrames_default] at hok
  have h3 : 3 ≤ n := by
    by_contra hlt
    push_neg at hlt
    obtain ⟨msg, hmsg⟩ := detect_changepoints_err e c lt pt 50 (by omega)
    rw [hmsg] at hok
    simp only [Bind.bind, Except.bind] at hok
    exact Except.noConfusion hok
  obtain ⟨gf, hcp, hchain, hbnd⟩ := detect_changepoints_ok e c lt pt 50 n he hc h3
  refine ⟨h3, ?_⟩
  rw [hcp] at hok
  simp only [Bind.bind, Except.bind, Except.ok.injEq] at hok
  have hchainlt : List.Chain' (· < ·) ((0 :: gf) ++ [n - 1]) := by
    rw [List.cons_append]
    refine chain'_append_last (n - 1) gf 0 (hchain.imp (fun a b h => h.2)) ?_
    intro x hx
    rcases List.mem_cons.mp hx with h0 | hgf
    · omega
    · have := (hbnd x hgf).2
      omega
  have hgaps : GapsOK 50 ((0 :: gf) ++ [n - 1]) := gapsOK_of_chain 50 gf 0 (n - 1) hchain
  have hbound : ∀ x ∈ (0 :: gf) ++ [n - 1], x ≤ n - 1 := by
    intro x hx
    rcases List.mem_append.mp hx with hl | hr
    · rcases List.mem_cons.mp hl with h0 | hgf
      · omega
      · have := (hbnd x hgf).2
        omega
    · rw [List.mem_singleton] at hr
      omega
  obtain ⟨hmkChain, hmkQ, hmkHead⟩ :=
    mkSegments_spec e c 50 n (by omega) ((0 :: gf) ++ [n - 1]) hchainlt hgaps hbound
  obtain ⟨hfChain, hfQ, hfNe, hfHead⟩ :=
    fuse_similar_segments_spec lt pt (((n : ℚ) - 1) / 100)
      (mkSegments e c (1 / 100) 50 ((0 :: gf) ++ [n - 1])) hmkChain hmkQ
  have hmkne51 : 51 ≤ n → mkSegments e c (1 / 100) 50 ((0 :: gf) ++ [n - 1]) ≠ [] := by
    intro h51
    cases gf with
    | nil =>
      simp only [List.cons_append, List.nil_append]
      exact mkSegments_ne_nil e c 50 0 (n - 1) [] (by omega)
    | cons x gf2 =>
      have hx : 0 + 50 ≤ x := by
        rcases hchain with _ | ⟨h0x, _⟩
        exact h0x.1
      simp only [List.cons_append]
      exact mkSegments_ne_nil e c 50 0 x (gf2 ++ [n - 1]) (by omega)
  have hheadval : ∀ s, (fuse_similar_segments lt pt
      (mkSegments e c (1 / 100) 50 ((0 :: gf) ++ [n - 1]))).head? = some s →
      s.start_time = 0 := by
    intro s hs
    have hfne : fuse_similar_segments lt pt
        (mkSegments e c (1 / 100) 50 ((0 :: gf) ++ [n - 1])) ≠ [] := by
      intro hnil
      rw [hnil] at hs
      exact Option.noConfusion hs
    have hmkne : mkSegments e c (1 / 100) 50 ((0 :: gf) ++ [n - 1]) ≠ [] := by
      intro hnil
      apply hfne
      rw [hnil]
      rfl
    obtain ⟨m0, t0, hm0⟩ := List.exists_cons_of_ne_nil hmkne
    have hsm : (mkSegments e c (1 / 100) 50 ((0 :: gf) ++ [n - 1])).head? = some m0 := by
      rw [hm0]
      rfl
    rw [hfHead s m0 hs hsm, hmkHead m0 hsm]
    simp [List.cons_append]
  by_cases hlen : maxSegs < (fuse_similar_segments lt pt
      (mkSegments e c (1 / 100) 50 ((0 :: gf) ++ [n - 1]))).length
  · rw [if_pos hlen] at hok
    unfold merge_to_max_segments at hok
    obtain ⟨hmChain, hmQ, hmNe, hmHead⟩ :=
      mergeLoop_spec (((n : ℚ) - 1) / 100) maxSegs hmax
        (fuse_similar_segments lt pt
          (mkSegments e c (1 / 100) 50 ((0 :: gf) ++ [n - 1]))).length
        (fuse_similar_segments lt pt
          (mkSegments e c (1 / 100) 50 ((0 :: gf) ++ [n - 1]))) hfChain hfQ
    have hlenle := mergeLoop_length maxSegs hmax
      (fuse_similar_segments lt pt
        (mkSegments e c (1 / 100) 50 ((0 :: gf) ++ [n - 1]))).length
      (fuse_similar_segments lt pt
        (mkSegments e c (1 / 100) 50 ((0 :: gf) ++ [n - 1]))) (by omega)
    subst hok
    refine ⟨hmChain, hmQ, ?_, hlenle, ?_⟩
    · intro s hs
      have hfne : fuse_similar_segments lt pt
          (mkSegments e c (1 / 100) 50 ((0 :: gf) ++ [n - 1])) ≠ [] := by
        intro hnil
        rw [hnil] at hlen
        simp at hlen
      obtain ⟨a, t, hat⟩ := List.exists_cons_of_ne_nil hfne
      have hsf : (fuse_similar_segments lt pt
          (mkSegments e c (1 / 100) 50 ((0 :: gf) ++ [n - 1]))).head? = some a := by
        rw [hat]
        rfl
      rw [hmHead s a hs hsf]
      exact hheadval a hsf
    · intro h51
      exact hmNe (hfNe (hmkne51 h51))
  · rw [if_neg hlen] at hok
    subst hok
    push_neg at hlen
    exact ⟨hfChain, hfQ, hheadval, hlen, fun h51 => hfNe (hmkne51 h51)⟩

/-! ## Claims 1 and 2: segment contiguity and count -/

/-- **Claim C1** (corrected): for every pair of derived curves of a valid
clip, a successful extraction yields segments that are ordered by start
time, contiguous and gap-free, with the first segment starting at time 0;
but every segment ends no later than `(numFrames - 1) × frameDuration`,
not at the claimed clip duration `numFrames × frameDuration` (see the
counterexample). -/
theorem claim1_segment_contiguity (e c : List ℚ) (lt pt : ℚ) (n : ℕ)
    (he : e.length = n) (hc : c.length = n) (segs : List Segment)
    (hok : extract_temporal_segments e c (1 / 100) (1 / 2) 8 lt pt = .ok segs) :
    List.Chain' (fun s t => s.end_time = t.start_time) segs ∧
    List.Chain' (fun s t => s.start_time < t.start_time) segs ∧
    (∀ s, segs.head? = some s → s.start_time = 0) ∧
    (∀ s ∈ segs, s.start_time < s.end_time ∧ s.end_time ≤ ((n : ℚ) - 1) / 100) := by
  obtain ⟨h3, hchain, hQ, hhead, hlen, hne⟩ :=
    extract_segments_ok_spec e c lt pt 8 n (by norm_num) he hc segs hok
  exact ⟨hchain, chain_lt_of_contig segs hchain (fun s hs => (hQ s hs).1), hhead, hQ⟩

/-- **Claim C1, witness**: the single segment of a constant 52-frame clip
is (trivially) contiguous, and its start time is 0. -/
theorem claim1_segment_contiguity_witness :
    List.Chain' (fun s t => s.end_time = t.start_time)
      [computeSegStats (((List.replicate 52 (-80 : ℚ)).drop 0).take (52 - 1 - 0))
        (((List.replicate 52 (63 / 2 : ℚ)).drop 0).take (52 - 1 - 0)) 0 (52 - 1) (1 / 100)] :=
  (claim1_segment_contiguity (List.replicate 52 (-80)) (List.replicate 52 (63 / 2)) 2 2 52
    (by simp) (by simp) _ extract_segments_const_52_full).1

/-- **Claim C1, counterexample**: on a constant 52-frame (0.52 s) clip the
single extracted segment ends at 0.51 s, not at the clip duration
`numFrames × frameDuration = 0.52 s`: the last changepoint is the last
frame *index* `numFrames - 1`. -/
theorem claim1_counterexample :
    (extract_temporal_segments (List.replicate 52 (-80 : ℚ))
        (List.replicate 52 (63 / 2 : ℚ)) (1 / 100) (1 / 2) 8 2 2).map
      (fun segs => segs.map (fun s => s.end_time)) = .ok [(51 : ℚ) / 100] ∧
    (51 : ℚ) / 100 ≠ (52 : ℚ) * (1 / 100) := by
  constructor
  · rw [extract_segments_const_52_full]
    have ht := computeSegStats_times
      (((List.replicate 52 (-80 : ℚ)).drop 0).take (52 - 1 - 0))
      (((List.replicate 52 (63 / 2 : ℚ)).drop 0).take (52 - 1 - 0)) 0 (52 - 1)
    simp only [Except.map, List.map_cons, List.map_nil]
    rw [ht.2]
    norm_num
  · norm_num

/-- **Claim C2** (corrected): a successful extraction yields at most
`max_segments = 8` segments, and a clip of at least 51 frames — in
particular one of at least twice the 0.5 s minimum segment duration —
yields at least one; but a short clip can yield zero segments, not the
claimed one-segment minimum (see the counterexample). -/
theorem claim2_segment_count (e c : List ℚ) (lt pt : ℚ) (n : ℕ)
    (he : e.length = n) (hc : c.length = n) (segs : List Segment)
    (hok : extract_temporal_segments e c (1 / 100) (1 / 2) 8 lt pt = .ok segs) :
    segs.length ≤ 8 ∧ (51 ≤ n → 1 ≤ segs.length) := by
  obtain ⟨h3, hchain, hQ, hhead, hlen, hne⟩ :=
    extract_segments_ok_spec e c lt pt 8 n (by norm_num) he hc segs hok
  refine ⟨hlen, fun h51 => ?_⟩
  have hne' := hne h51
  cases segs with
  | nil => exact absurd rfl hne'
  | cons a t => simp

/-- **Claim C2, witness**: the constant 52-frame clip respects the cap
and, being at least 51 frames long, yields at least one segment. -/
theorem claim2_segment_count_witness :
    ([computeSegStats (((List.replicate 52 (-80 : ℚ)).drop 0).take (52 - 1 - 0))
        (((List.replicate 52 (63 / 2 : ℚ)).drop 0).take (52 - 1 - 0)) 0 (52 - 1) (1 / 100)] :
      List Segment).length ≤ 8 ∧
    (51 ≤ 52 →
      1 ≤ ([computeSegStats (((List.replicate 52 (-80 : ℚ)).drop 0).take (52 - 1 - 0))
        (((List.replicate 52 (63 / 2 : ℚ)).drop 0).take (52 - 1 - 0)) 0 (52 - 1) (1 / 100)] :
      List Segment).length) :=
  claim2_segment_count (List.replicate 52 (-80)) (List.replicate 52 (63 / 2)) 2 2 52
    (by simp) (by simp) _ extract_segments_const_52_full

/-- **Claim C2, counterexample**: a constant 10-frame (0.1 s) clip — a
valid input shorter than twice the minimum segment duration — yields zero
segments, not the claimed single whole-clip segment: the only changepoint
interval `(0, 9)` is shorter than `min_segment_frames = 50` and is
dropped. -/
theorem claim2_counterexample :
    (extract_temporal_segments (List.replicate 10 (-80 : ℚ))
        (List.replicate 10 (63 / 2 : ℚ)) (1 / 100) (1 / 2) 8 2 2).map List.length =
      .ok 0 := by
  rw [extract_segments_const_10]
  rfl

/-! ## Claims 3 and 9: degenerate inputs and the shape dispatch -/

/-- The changepoint detector succeeds on every clip of at least three
frames (only the energy curve's length is consulted by its guards). -/
theorem detect_changepoints_isOk (e c : List ℚ) (lt pt : ℚ) (g : ℕ)
    (h3 : 3 ≤ e.length) :
    ∃ cps, detect_changepoints e c lt pt g = .ok cps := by
  unfold detect_changepoints
  have hlen := diffQ_length e
  have h1 : ¬ (diffQ e).isEmpty = true := by
    intro hemp
    rw [List.isEmpty_iff] at hemp
    rw [hemp] at hlen
    simp at hlen
    omega
  rw [if_neg h1]
  rw [if_neg (by omega : ¬ (diffQ e).length = 1)]
  exact ⟨_, rfl⟩

/-- The segmentation engine succeeds whenever the energy curve has at
least three frames. -/
theorem extract_segments_isOk (e c : List ℚ) (fd msd : ℚ) (maxSegs : ℕ)
    (lt pt : ℚ) (h3 : 3 ≤ e.length) :
    ∃ segs, extract_temporal_segments e c fd msd maxSegs lt pt = .ok segs := by
  obtain ⟨cps, hcp⟩ := detect_changepoints_isOk e c lt pt (minSegmentFrames fd msd) h3
  unfold extract_temporal_segments
  simp only [hcp, Bind.bind, Except.bind]
  exact ⟨_, rfl⟩

/-- Whole-clip dB statistics succeed whenever the clip has at least one
frame. -/
theorem extract_temporal_statistics_ok (ops : RealOps) (M : List (List ℚ))
    (h : energyDbCurve ops.l10 M ≠ []) :
    ∃ out, extract_temporal_statistics ops M = .ok out := by
  obtain ⟨x, xs, hx⟩ := List.exists_cons_of_ne_nil h
  unfold extract_temporal_statistics
  simp only [hx]
  exact ⟨_, rfl⟩

/-- The silence detector succeeds whenever the clip has at least one
frame. -/
theorem detect_silence_ok (M : List (List ℚ)) (h : isActiveList M ≠ []) :
    ∃ out, detect_silence M = .ok out := by
  obtain ⟨x, xs, hx⟩ := List.exists_cons_of_ne_nil h
  unfold detect_silence
  simp only [hx]
  exact ⟨_, rfl⟩

/-- The event detector succeeds whenever the power curve is nonempty. -/
theorem detect_salient_events_ok (pot : List ℚ) (l10 : ℚ → ℚ) (fd : ℚ)
    (np : ℕ) (pr mi : ℚ) (h : pot ≠ []) :
    ∃ out, detect_salient_events pot l10 fd np pr mi = .ok out := by
  obtain ⟨x, xs, hx⟩ := List.exists_cons_of_ne_nil h
  unfold detect_salient_events
  rw [hx]
  exact ⟨_, rfl⟩

/-- The pitch-movement classifier succeeds on every curve of at least two
frames: the jump tensor is nonempty and every branch returns a label. -/
theorem classify_pitch_movement_ok (c : List ℚ) (h2 : 2 ≤ c.length) :
    ∃ s, classify_pitch_movement c = .ok s := by
  have hlen := diffQ_length c
  have hd : diffQ c ≠ [] := by
    intro hnil
    rw [hnil] at hlen
    simp at hlen
    omega
  obtain ⟨x, xs, hx⟩ := List.exists_cons_of_ne_nil hd
  unfold classify_pitch_movement
  simp only [hx, List.map_cons, maxO]
  repeat' first
  | exact ⟨_, rfl⟩
  | split

/-- The trajectory stage succeeds on every clip of at least two frames. -/
theorem extract_temporal_trajectories_ok (ops : RealOps) (M : List (List ℚ))
    (h2 : 2 ≤ (centroidOverTime M).length) :
    ∃ out, extract_temporal_trajectories ops M = .ok out := by
  obtain ⟨s, hs⟩ := classify_pitch_movement_ok (centroidOverTime M) h2
  unfold extract_temporal_trajectories
  simp only [hs, Bind.bind, Except.bind]
  exact ⟨_, rfl⟩

/-- All derived curves have one entry per time frame. -/
theorem powerOverTime_length (M : List (List ℚ)) :
    (powerOverTime M).length = (M.headD []).length := by
  simp [powerOverTime]

/-- The dB energy curve has one entry per time frame. -/
theorem energyDbCurve_length (l10 : ℚ → ℚ) (M : List (List ℚ)) :
    (energyDbCurve l10 M).length = (M.headD []).length := by
  simp [energyDbCurve, powerOverTime]

/-- The centroid curve has one entry per time frame. -/
theorem centroidOverTime_length (M : List (List ℚ)) :
    (centroidOverTime M).length = (M.headD []).length := by
  simp [centroidOverTime]

/-- The activity flags have one entry per time frame. -/
theorem isActiveList_length (M : List (List ℚ)) :
    (isActiveList M).length = (M.headD []).length := by
  simp [isActiveList, powerOverTime]

/-- In a well-formed `b × f` matrix the first row has `f` entries. -/
theorem headD_length_of_wf (M : List (List ℚ)) (b f : ℕ) (hwf : Wf M b f) :
    (M.headD []).length = f := by
  obtain ⟨hMl, hb, hf0, hrows⟩ := hwf
  cases M with
  | nil =>
    simp at hMl
    omega
  | cons r t => exact hrows r (List.mem_cons_self r t)

/-- The orchestration succeeds on every well-formed matrix of at least
three frames: all fallible stages return `.ok`, and the record is built in
one final step. -/
theorem extractCore_ok (ops : RealOps) (groups : List (ℕ × ℕ)) (fd : ℚ)
    (M : List (List ℚ)) (b f : ℕ) (hwf : Wf M b f) (hf : 3 ≤ f) :
    ∃ out, extractCore ops groups fd M = .ok out := by
  have hhead : (M.headD []).length = f := headD_length_of_wf M b f hwf
  obtain ⟨o1, h1⟩ := extract_temporal_statistics_ok ops M (by
    intro hnil
    have hl := energyDbCurve_length ops.l10 M
    rw [hnil, hhead] at hl
    simp at hl
    omega)
  obtain ⟨o2, h2⟩ := detect_silence_ok M (by
    intro hnil
    have hl := isActiveList_length M
    rw [hnil, hhead] at hl
    simp at hl
    omega)
  obtain ⟨o3, h3⟩ := detect_salient_events_ok (powerOverTime M) ops.l10 fd
    3 (3 / 20) (1 / 5) (by
    intro hnil
    have hl := powerOverTime_length M
    rw [hnil, hhead] at hl
    simp at hl
    omega)
  obtain ⟨o4, h4⟩ := extract_temporal_trajectories_ok ops M (by
    rw [centroidOverTime_length, hhead]
    omega)
  obtain ⟨o5, h5⟩ := extract_segments_isOk (energyDbCurve ops.l10 M)
    (centroidOverTime M) fd (1 / 2) 8 2 2 (by
    rw [energyDbCurve_length, hhead]
    omega)
  unfold extractCore
  simp only [h1, h2, h3, h4, h5, Bind.bind, Except.bind]
  exact ⟨_, rfl⟩

/-- With `is_db = false` a 2-D input flows into the orchestration
unchanged. -/
theorem extract_all_features_t2_false (ops : RealOps) (groups : List (ℕ × ℕ))
    (fd : ℚ) (M : List (List ℚ)) :
    extract_all_features ops groups fd (.t2 M) false = extractCore ops groups fd M := rfl

/-- A 3-D input whose leading axis has size 1 is squeezed: extraction
proceeds exactly as on the inner 2-D matrix. -/
theorem extract_all_features_t3_single (ops : RealOps) (groups : List (ℕ × ℕ))
    (fd : ℚ) (m : List (List ℚ)) (is_db : Bool) :
    extract_all_features ops groups fd (.t3 [m]) is_db =
      extract_all_features ops groups fd (.t2 m) is_db := rfl

/-- The spec's validity invariant holds for the all-zero matrix. -/
theorem wf_allZero (b f : ℕ) (hb : 0 < b) (hf : 0 < f) : Wf (allZero b f) b f := by
  refine ⟨by simp [allZero], hb, hf, ?_⟩
  intro r hr
  simp only [allZero] at hr
  rw [List.eq_of_mem_replicate hr]
  simp

/-- Per-bin power of the all-zero matrix: every bin holds exactly the
epsilon. -/
theorem powerPerBinR_allZero (b f : ℕ) :
    powerPerBinR (allZero b f) = List.replicate b (((eps : ℚ) : ℝ)) := by
  unfold powerPerBinR allZero
  rw [List.map_replicate]
  congr 1
  rw [List.map_replicate]
  simp

/-- Probability-like normalisation of the all-zero matrix: the uniform
distribution `1 / numBands`. -/
theorem probR_allZero (b f : ℕ) (hb : 1 ≤ b) :
    probR (allZero b f) = List.replicate b (1 / (b : ℝ)) := by
  have hb0 : (0 : ℝ) < (b : ℝ) := by exact_mod_cast Nat.lt_of_lt_of_le Nat.zero_lt_one hb
  have heps : (0 : ℝ) < ((eps : ℚ) : ℝ) := by norm_num [eps]
  unfold probR
  simp only [powerPerBinR_allZero, List.sum_replicate, nsmul_eq_mul]
  rw [if_pos (mul_pos hb0 heps)]
  rw [List.map_replicate]
  congr 1
  rw [div_eq_div_iff (mul_pos hb0 heps).ne' hb0.ne']
  ring

/-- Spectral entropy of the all-zero matrix: `log₂ numBands`, the entropy
of the uniform distribution (for any band count the epsilon clamp does not
bite, up to the width where `1/b` falls below the epsilon). -/
theorem entropyR_allZero (b f : ℕ) (hb : 1 ≤ b) (hble : (b : ℚ) ≤ 100000000) :
    entropyR (allZero b f) = Real.logb 2 b := by
  have hb0 : (0 : ℝ) < (b : ℝ) := by exact_mod_cast Nat.lt_of_lt_of_le Nat.zero_lt_one hb
  unfold entropyR
  rw [probR_allZero b f hb]
  rw [List.map_replicate, List.sum_replicate, nsmul_eq_mul]
  have hmax : max (1 / (b : ℝ)) (((eps : ℚ) : ℝ)) = 1 / (b : ℝ)  := by
    have h1 : ((eps : ℚ) : ℝ) = 1 / 100000000 := by norm_num [eps]
    rw [h1]
    apply max_eq_left
    apply one_div_le_one_div_of_le hb0
    exact_mod_cast hble
  rw [hmax, one_div, Real.logb_inv]
  field_simp

/-- On a single-frame clip the trajectory stage raises: the pitch-movement
classifier feeds an empty jump tensor to `torch.max`. -/
theorem extract_temporal_trajectories_err (ops : RealOps) (M : List (List ℚ))
    (h1 : (centroidOverTime M).length = 1) :
    extract_temporal_trajectories ops M = .error "max(): empty tensor" := by
  have hcp : classify_pitch_movement (centroidOverTime M) =
      .error "max(): empty tensor" := by
    have hl := diffQ_length (centroidOverTime M)
    rw [h1] at hl
    have hd : diffQ (centroidOverTime M) = [] := by
      rw [← List.length_eq_zero]
      omega
    unfold classify_pitch_movement
    simp only [hd, List.map_nil, maxO]
  unfold extract_temporal_trajectories
  simp only [hcp, Bind.bind, Except.bind]

/-- A valid single-frame clip makes the whole extraction raise: every
stage before the trajectories succeeds, and the trajectory stage's
pitch-movement classifier hits an empty tensor. -/
theorem extract_all_features_single_frame_err (ops : RealOps)
    (groups : List (ℕ × ℕ)) (M : List (List ℚ)) (b : ℕ) (hwf : Wf M b 1) :
    extract_all_features ops groups (1 / 100) (.t2 M) false =
      .error "max(): empty tensor" := by
  have hhead : (M.headD []).length = 1 := headD_length_of_wf M b 1 hwf
  obtain ⟨o1, h1⟩ := extract_temporal_statistics_ok ops M (by
    intro hnil
    have hl := energyDbCurve_length ops.l10 M
    rw [hnil, hhead] at hl
    simp at hl)
  obtain ⟨o2, h2⟩ := detect_silence_ok M (by
    intro hnil
    have hl := isActiveList_length M
    rw [hnil, hhead] at hl
    simp at hl)
  obtain ⟨o3, h3⟩ := detect_salient_events_ok (powerOverTime M) ops.l10 (1 / 100)
    3 (3 / 20) (1 / 5) (by
    intro hnil
    have hl := powerOverTime_length M
    rw [hnil, hhead] at hl
    simp at hl)
  have h4 := extract_temporal_trajectories_err ops M (by
    rw [centroidOverTime_length, hhead])
  rw [extract_all_features_t2_false]
  unfold extractCore
  simp only [h1, h2, h3, h4, Bind.bind, Except.bind]

/-- **Claim C3** (corrected): extraction completes without an exception on
every well-formed matrix of at least three frames — in particular on the
all-zero matrix, whose spectral entropy is the uniform-fallback value
`log₂ numBands`; but a single-frame clip raises instead of degrading (see
the counterexample). -/
theorem claim3_degenerate_inputs (ops : RealOps) (groups : List (ℕ × ℕ))
    (M : List (List ℚ)) (b f : ℕ) (hwf : Wf M b f) (hf : 3 ≤ f)
    (hble : (b : ℚ) ≤ 100000000) :
    (∃ out, extract_all_features ops groups (1 / 100) (.t2 M) false = .ok out) ∧
    entropyR (allZero b f) = Real.logb 2 b := by
  constructor
  · obtain ⟨out, hout⟩ := extractCore_ok ops groups (1 / 100) M b f hwf hf
    exact ⟨out, by rw [extract_all_features_t2_false]; exact hout⟩
  · exact entropyR_allZero b f hwf.2.1 hble

/-- **Claim C3, witness**: the all-zero 2-band, 3-frame matrix extracts
successfully and its entropy is `log₂ 2`. -/
theorem claim3_degenerate_inputs_witness :
    (∃ out, extract_all_features opsId [] (1 / 100) (.t2 (allZero 2 3)) false =
      .ok out) ∧
    entropyR (allZero 2 3) = Real.logb 2 ((2 : ℕ) : ℝ) :=
  claim3_degenerate_inputs opsId [] (allZero 2 3) 2 3
    (wf_allZero 2 3 (by norm_num) (by norm_num)) (by norm_num) (by norm_num)

/-- **Claim C3, counterexample**: the valid all-zero 4-band single-frame
matrix raises `max(): empty tensor` instead of degrading to sentinel
outputs. -/
theorem claim3_counterexample :
    extract_all_features opsId [] (1 / 100) (.t2 (allZero 4 1)) false =
      .error "max(): empty tensor" :=
  extract_all_features_single_frame_err opsId [] (allZero 4 1) 4
    (wf_allZero 4 1 (by norm_num) (by norm_num))

/-- **Claim C9** (corrected): a 1-D input raises the shape error
immediately and no record is produced (the `Except` result carries either
a full record or an error, never a partial one); but a 3-D input with a
leading axis of size 1 is not rejected: it is squeezed and extraction
proceeds exactly as on the inner 2-D matrix (see the counterexample). -/
theorem claim9_rank_dispatch (ops : RealOps) (groups : List (ℕ × ℕ)) (fd : ℚ)
    (v : List ℚ) (m : List (List ℚ)) (is_db : Bool) :
    extract_all_features ops groups fd (.t1 v) is_db =
      .error "Expected 2D mel-spectrogram, got 1D" ∧
    extract_all_features ops groups fd (.t3 [m]) is_db =
      extract_all_features ops groups fd (.t2 m) is_db :=
  ⟨rfl, rfl⟩

/-- **Claim C9, counterexample**: a rank-3 input whose leading axis has
size 1 does not raise a shape error — extraction succeeds on it. -/
theorem claim9_counterexample :
    ∃ out, extract_all_features opsId [] (1 / 100) (.t3 [allZero 2 3]) false =
      .ok out := by
  obtain ⟨out, hout⟩ := extractCore_ok opsId [] (1 / 100) (allZero 2 3) 2 3
    (wf_allZero 2 3 (by norm_num) (by norm_num)) (by norm_num)
  refine ⟨out, ?_⟩
  rw [extract_all_features_t3_single, extract_all_features_t2_false]
  exact hout

end MelFeat
